import Mathlib

/-!
# Forwarding-strategy framework of the NDN forwarding daemon

A shallow embedding of `daemon/fw/strategy.cpp`: the versioned strategy registry
(`Strategy::find`, `canCreate`, `create`, `areSameType`, `parseInstanceName`,
`makeInstanceName`), the FIB lookup with Link delegations (`Strategy::lookupFib`) and the
Nack fan-out (`Strategy::sendNacks`).

The hierarchical `Name`, the forwarding table and the PIT entry are collaborator types
that live outside `strategy.cpp`; they are modelled here at their interface.
-/

namespace nfd

/-! ## Names (collaborator) -/

/-- Modelled from the spec: a name component of the hierarchical Name collaborator, given by
the bytes of its value. -/
structure Component where
  value : List (Fin 256)
deriving DecidableEq, Repr

/-- Modelled from the spec: a hierarchical name is an ordered sequence of components. -/
abbrev Name := List Component

namespace Component

/-- Modelled from the spec: the key of the canonical component order, a shorter value sorts
first and values of one length are compared bytewise. -/
def key (c : Component) : ℕ ×ₗ List (Fin 256) := toLex (c.value.length, c.value)

/-- Modelled from the spec: the total order of components (canonical order); names are then
ordered component-wise, a proper prefix sorting before its extensions. -/
instance : LinearOrder Component :=
  LinearOrder.lift' key (fun a b h => by
    cases a; cases b
    simp only [key, EmbeddingLike.apply_eq_iff_eq, Prod.mk.injEq] at h
    simp [h.2])

/-- The marker byte that starts a version component. -/
def VERSION_MARKER : Fin 256 := 0xFD

/-- Modelled from the spec: a number with marker is the marker byte followed by a nonnegative
integer of 1, 2, 4 or 8 bytes. -/
def isNumberWithMarker (c : Component) (marker : Fin 256) : Bool :=
  match c.value with
  | [] => false
  | b :: rest => b == marker &&
      (rest.length == 1 || rest.length == 2 || rest.length == 4 || rest.length == 8)

/-- Modelled from the spec: the reserved version component kind. -/
def isVersion (c : Component) : Bool := c.isNumberWithMarker VERSION_MARKER

/-- Big-endian value of a byte string. -/
def readNonNegativeInteger (bs : List (Fin 256)) : Nat :=
  bs.foldl (fun acc b => acc * 256 + b.val) 0

/-- Modelled from the spec: the integer carried by a version component (the bytes after the
marker); only called on components for which `isVersion` holds. -/
def toVersion (c : Component) : Nat := readNonNegativeInteger c.value.tail

/-- Increment of a byte string read as a big-endian number, with the carry out. -/
def incBytes : List (Fin 256) → List (Fin 256) × Bool
  | [] => ([], true)
  | b :: bs =>
    let r := incBytes bs
    if r.2 then ((b + 1) :: r.1, b + 1 == 0) else (b :: r.1, false)

/-- Modelled from the spec: the successor of a component in the canonical order: the value is
incremented as a big-endian number, and a value of all `0xFF` becomes all zeros, one byte
longer. -/
def getSuccessor (c : Component) : Component :=
  let r := incBytes c.value
  if r.2 then ⟨r.1 ++ [0]⟩ else ⟨r.1⟩

end Component

namespace Name

/-- Modelled from the spec: `Name::getPrefix(-1)`, the name without its last component. -/
def getPrefixMinus1 (n : Name) : Name := n.dropLast

/-- Modelled from the spec: `Name::getPrefix(k)` for `k ≥ 0`, the first `k` components. -/
def getPrefix (n : Name) (k : Nat) : Name := n.take k

/-- Modelled from the spec: `Name::getSubName(k)`, the components from index `k` on. -/
def getSubName (n : Name) (k : Nat) : Name := n.drop k

/-- Modelled from the spec: the prefix test `a.isPrefixOf(b)`. -/
def isPrefixOf (a b : Name) : Bool := List.isPrefixOf a b

/-- Modelled from the spec: `Name::getSuccessor` of a non-empty name replaces the last
component by its successor; `strategy.cpp` never calls it on the empty name. -/
def getSuccessor (n : Name) : Name :=
  match n.getLast? with
  | none => [⟨[0]⟩]
  | some c => n.dropLast ++ [c.getSuccessor]

end Name

namespace fw

/-! ## Strategy registry -/

/-- The registry `std::map<Name, CreateFunc>`: its entries in iteration order, which for a
well-formed registry is strictly increasing key order. `φ` is the factory type. -/
structure Registry (φ : Type) where
  entries : List (Name × φ)

namespace Registry

variable {φ : Type}

/-- Keys of the registry, in iteration order. -/
def keys (reg : Registry φ) : List Name := reg.entries.map Prod.fst

/-- A `std::map` iterates its keys in strictly increasing order (so they are unique). -/
def WellFormed (reg : Registry φ) : Prop := reg.keys.Sorted (· < ·)

instance (reg : Registry φ) : Decidable reg.WellFormed := by
  unfold WellFormed; infer_instance

/-- Iterators are positions; `begin` is the first position. -/
def begin (_reg : Registry φ) : Nat := 0

/-- The past-the-end iterator, which `find` returns for not-found. -/
def «end» (reg : Registry φ) : Nat := reg.entries.length

/-- `std::map::lower_bound`: the first position whose key is not less than `k`. -/
def lower_bound (reg : Registry φ) (k : Name) : Nat :=
  reg.entries.findIdx (fun e => decide (¬ e.1 < k))

/-- The key at an iterator (`it->first`), absent for the past-the-end iterator. -/
def keyAt (reg : Registry φ) (it : Nat) : Option Name := (reg.entries[it]?).map Prod.fst

end Registry

/-- Result of `parseInstanceName`. -/
structure ParsedInstanceName where
  strategyName : Name
  version : Option Nat
  parameters : Name
deriving DecidableEq, Repr

namespace Strategy

/-- The loop of `parseInstanceName`: `i` runs from `input.size() - 1` down to `1`;
`loop input i` is the remainder of the loop when the index about to be tested is `i`. -/
def parseInstanceName.loop (input : Name) : Nat → ParsedInstanceName
  | 0 => { strategyName := input, version := none, parameters := [] }
  | i + 1 =>
    match input[i + 1]? with
    | some c =>
      if c.isVersion then
        { strategyName := input.getPrefix (i + 2), version := some c.toVersion,
          parameters := input.getSubName (i + 2) }
      else parseInstanceName.loop input i
    | none => parseInstanceName.loop input i

/-- `Strategy::parseInstanceName`. -/
def parseInstanceName (input : Name) : ParsedInstanceName :=
  parseInstanceName.loop input (input.length - 1)

/-- `Strategy::find`: the iterator of the registry entry an instance name resolves to,
`reg.end` when not found. -/
def find {φ : Type} (reg : Registry φ) (instanceName : Name) : Nat :=
  let parsed := parseInstanceName instanceName
  if parsed.version.isSome then
    let found := reg.lower_bound parsed.strategyName
    if found != reg.end then
      match reg.keyAt found with
      | some k => if parsed.strategyName.getPrefixMinus1.isPrefixOf k then found else reg.end
      | none => reg.end
    else reg.end
  else if !parsed.strategyName.isEmpty then
    let found := reg.lower_bound parsed.strategyName.getSuccessor
    if found != reg.begin then
      match reg.keyAt (found - 1) with
      | some k => if parsed.strategyName.isPrefixOf k then found - 1 else reg.end
      | none => reg.end
    else reg.end
  else reg.end

end Strategy

end fw

/-! ## Forwarding table, Link and PIT entry (collaborators) -/

/-- Faces are compared by identity (`const Face*`). -/
abbrev FaceId := Nat

namespace fib

/-- Modelled from the spec: a forwarding-table entry, keyed by a name prefix and holding zero
or more next hops (face and cost). -/
structure Entry where
  getPrefix : Name
  getNextHops : List (FaceId × Nat)
deriving DecidableEq, Repr

/-- Modelled from the spec: "has next hops", whether the prefix is servable. -/
def Entry.hasNextHops (e : Entry) : Bool := !e.getNextHops.isEmpty

end fib

/-- Modelled from the spec: the forwarding table, an associative store of entries. -/
structure Fib where
  entries : List fib.Entry

/-- Modelled from the spec: the entry returned when no prefix matches, with a zero-length
prefix and no next hops. -/
def Fib.s_emptyEntry : fib.Entry := { getPrefix := [], getNextHops := [] }

/-- Modelled from the spec: longest-prefix-match, the entry with the longest prefix that is a
prefix of the name (the empty entry when the table has none). -/
def Fib.findLongestPrefixMatch (self : Fib) (n : Name) : fib.Entry :=
  (self.entries.filter (fun e => e.getPrefix.isPrefixOf n)).foldl
    (fun best e => if best.getPrefix.length ≤ e.getPrefix.length then e else best) Fib.s_emptyEntry

/-- Modelled from the spec: a Link, its delegations `(preference, name)` in the iteration
order of the delegation set, which is priority order. -/
structure Link where
  delegations : List (Nat × Name)
deriving DecidableEq, Repr

/-- Modelled from the spec: the fields of an Interest that `lookupFib` reads and writes. -/
structure Interest where
  name : Name
  link : Option Link
  selectedDelegation : Option Name
deriving DecidableEq, Repr

namespace Interest

/-- `Interest::hasLink`. -/
def hasLink (i : Interest) : Bool := i.link.isSome

/-- `Interest::hasSelectedDelegation`. -/
def hasSelectedDelegation (i : Interest) : Bool := i.selectedDelegation.isSome

/-- Modelled from the spec: `Interest::setSelectedDelegation` records the chosen delegation
on the Interest. -/
def setSelectedDelegation (i : Interest) (delegationName : Name) : Interest :=
  { i with selectedDelegation := some delegationName }

end Interest

/-- Interest objects are held by reference (`shared_ptr<const Interest>`): a PIT entry and
its in-records name Interest objects, which may or may not be the same object. -/
abbrev InterestRef := Nat

/-- The Interest objects, by reference. -/
abbrev InterestStore := InterestRef → Interest

namespace pit

/-- Modelled from the spec: an in-record, one per downstream face still waiting, holding the
Interest received from that face. -/
structure InRecord where
  face : FaceId
  interest : InterestRef
deriving DecidableEq, Repr

/-- Modelled from the spec: a PIT entry, the Interest it was created for and its
in-records. -/
structure Entry where
  interest : InterestRef
  inRecords : List InRecord
deriving DecidableEq, Repr

end pit

/-- The part of the forwarder `lookupFib` consults: the FIB and the network region table's
producer-region test, which is taken as a parameter. -/
structure Forwarder where
  fib : Fib
  isInProducerRegion : Link → Bool

namespace fw

/-! ## FIB lookup -/

/-- The trace line a `lookupFib` call logs, one per returning branch. -/
inductive LookupBranch where
  | noLinkObject
  | hasSelectedDelegation
  | inConsumerRegion
  | enterDefaultFreeZone
deriving DecidableEq, Repr

/-- Ways `lookupFib` does not return normally. -/
inductive LookupFault where
  /-- `BOOST_ASSERT(!isInProducerRegion(link))` fails. -/
  | inProducerRegion
  /-- `link.getDelegations().begin()` is dereferenced on an empty delegation set. -/
  | noDelegations
  /-- `BOOST_ASSERT(false)` after the delegation loop. -/
  | delegationsExhausted
deriving DecidableEq, Repr

/-- What a returning `lookupFib` call leaves: the entry returned, the branch logged and the
Interest objects after the call. -/
structure LookupResult where
  entry : fib.Entry
  branch : LookupBranch
  store : InterestStore

namespace Strategy

/-- The `std::for_each` over the in-records of `lookupFib`: sets the selected delegation on
the Interest held by each in-record. -/
def setSelectedDelegationOnInRecords (store : InterestStore) (inRecords : List pit.InRecord)
    (delegationName : Name) : InterestStore :=
  inRecords.foldl
    (fun st inR => Function.update st inR.interest
      ((st inR.interest).setSelectedDelegation delegationName))
    store

/-- The delegation loop of `lookupFib`: the first delegation whose longest-prefix-match entry
has next hops is selected. -/
def lookupFib.chooseDelegation (forwarder : Forwarder) (store : InterestStore)
    (pitEntry : pit.Entry) : List (Nat × Name) → Except LookupFault LookupResult
  | [] => .error .delegationsExhausted
  | delegation :: rest =>
    let delegationName := delegation.2
    let fibEntry := forwarder.fib.findLongestPrefixMatch delegationName
    if fibEntry.hasNextHops then
      .ok { entry := fibEntry, branch := .enterDefaultFreeZone,
            store := setSelectedDelegationOnInRecords store pitEntry.inRecords delegationName }
    else lookupFib.chooseDelegation forwarder store pitEntry rest

/-- `Strategy::lookupFib`. -/
def lookupFib (forwarder : Forwarder) (store : InterestStore) (pitEntry : pit.Entry) :
    Except LookupFault LookupResult :=
  let interest := store pitEntry.interest
  match interest.link with
  | none =>
    .ok { entry := forwarder.fib.findLongestPrefixMatch interest.name,
          branch := .noLinkObject, store := store }
  | some link =>
    if forwarder.isInProducerRegion link then .error .inProducerRegion
    else
      match interest.selectedDelegation with
      | some selectedDelegation =>
        .ok { entry := forwarder.fib.findLongestPrefixMatch selectedDelegation,
              branch := .hasSelectedDelegation, store := store }
      | none =>
        match link.delegations with
        | [] => .error .noDelegations
        | first :: _ =>
          let fibEntry0 := forwarder.fib.findLongestPrefixMatch first.2
          let isDefaultFreeZone := !(fibEntry0.getPrefix.length == 0 && fibEntry0.hasNextHops)
          if !isDefaultFreeZone then
            .ok { entry := fibEntry0, branch := .inConsumerRegion, store := store }
          else lookupFib.chooseDelegation forwarder store pitEntry link.delegations

end Strategy

/-! ## Nack fan-out -/

/-- A Nack header, carrying its reason. -/
structure NackHeader where
  reason : Nat
deriving DecidableEq, Repr

/-- The state `sendNacks` acts on: the in-records of the PIT entry and the Nacks handed to
`sendNack` so far, in call order. -/
structure NackWorld where
  inRecords : List pit.InRecord
  nacksSent : List (FaceId × NackHeader)
deriving DecidableEq, Repr

namespace Strategy

/-- Modelled from the spec: the collaborator `sendNack`, which sends the Nack to the face and
deletes the in-record of that face. -/
def sendNack (w : NackWorld) (downstream : FaceId) (header : NackHeader) : NackWorld :=
  { inRecords := w.inRecords.filter (fun inR => inR.face != downstream),
    nacksSent := w.nacksSent ++ [(downstream, header)] }

/-- The set `downstreams` of `sendNacks` before the loop that sends: the faces of the
in-records inserted into a set, then the excluded faces erased. -/
def sendNacks.downstreams (inRecords : List pit.InRecord) (exceptFaces : List FaceId) :
    List FaceId :=
  let downstreams := inRecords.foldl (fun s inR => s.insert inR.face) []
  exceptFaces.foldl (fun s exceptFace => s.erase exceptFace) downstreams

/-- `Strategy::sendNacks`. -/
def sendNacks (w : NackWorld) (header : NackHeader) (exceptFaces : List FaceId) : NackWorld :=
  (sendNacks.downstreams w.inRecords exceptFaces).foldl
    (fun w downstream => sendNack w downstream header) w

end Strategy

end fw

/-! ## Registry operations built on `find` -/

/-- Modelled from the spec: a strategy instance, of which this core uses the instance name
it reports; `m_id` tells instances of different factories apart. -/
structure StrategyInstance where
  getInstanceName : Name
  m_id : Nat
deriving DecidableEq, Repr

namespace fw

/-- The factory type `CreateFunc` of the registry: called with the forwarder and the
instance name. -/
abbrev CreateFunc := Forwarder → Name → StrategyInstance

/-- Ways `create` does not return normally. -/
inductive CreateFault where
  /-- `BOOST_ASSERT(!instance->getInstanceName().empty())` fails. -/
  | emptyInstanceName
  /-- An iterator that is no position of the registry is dereferenced. -/
  | invalidIterator
deriving DecidableEq, Repr

namespace Strategy

/-- `Strategy::canCreate`. -/
def canCreate {φ : Type} (reg : Registry φ) (instanceName : Name) : Bool :=
  find reg instanceName != reg.end

/-- `Strategy::create`: `.ok none` is the null pointer returned for not-found. -/
def create (reg : Registry CreateFunc) (instanceName : Name) (forwarder : Forwarder) :
    Except CreateFault (Option StrategyInstance) :=
  let found := find reg instanceName
  if found == reg.end then .ok none
  else
    match reg.entries[found]? with
    | none => .error .invalidIterator
    | some entry =>
      let created := entry.2 forwarder instanceName
      if created.getInstanceName.isEmpty then .error .emptyInstanceName
      else .ok (some created)

/-- `Strategy::areSameType`: the two iterators returned by `find` are compared. -/
def areSameType {φ : Type} (reg : Registry φ) (instanceNameA instanceNameB : Name) : Bool :=
  find reg instanceNameA == find reg instanceNameB

/-- `Strategy::makeInstanceName`; `none` when `strategyName.at(-1)` does not exist or the
assertion that it is a version component fails. -/
def makeInstanceName (input strategyName : Name) : Option Name :=
  match strategyName.getLast? with
  | none => none
  | some last =>
    if !last.isVersion then none
    else
      let hasVersion := input.reverse.any (fun comp => comp.isVersion)
      some (if hasVersion then input else input ++ [last])

/-- The greatest key, in name order, among the registry keys that have `n` as a prefix,
found by a linear scan over all keys; the specification `find` is compared with for a
request without version. -/
def greatestKeyWithPrefix {φ : Type} (reg : Registry φ) (n : Name) : Option Name :=
  (reg.keys.filter (fun k => n.isPrefixOf k)).foldl
    (fun best k =>
      match best with
      | none => some k
      | some b => if b < k then some k else some b)
    none

/-- The position a naive linear scan resolves a request without version to: the position of
the greatest key that has `n` as a prefix, not-found when no key has, and not-found for the
empty name. -/
def findByLinearScan {φ : Type} (reg : Registry φ) (n : Name) : Nat :=
  if n.isEmpty then reg.end
  else
    match greatestKeyWithPrefix reg n with
    | none => reg.end
    | some k => reg.keys.findIdx (fun key => decide (key = k))

end Strategy

end fw

/-! ## Concrete inputs used by the examples -/

namespace Example

/-- The version component `%FD` followed by the one-byte number `n`. -/
def version (n : Fin 256) : Component := ⟨[0xFD, n]⟩

/-- The generic component `s`. -/
def s : Component := ⟨[115]⟩

/-- The generic component `p`. -/
def p : Component := ⟨[112]⟩

/-- A three-byte generic component, sorting above every two-byte version component. -/
def x : Component := ⟨[0xFE, 0, 0]⟩

/-- Registry with the keys `/s/v1`, `/s/v2` and the key `/s/x/v1` of a nested family. -/
def nestedRegistry : fw.Registry Nat :=
  ⟨[([s, version 1], 1), ([s, version 2], 2), ([s, x, version 1], 3)]⟩

/-- Registry with the keys `/s/v1`, `/s/v4/p/v1` and `/s/v5`. -/
def betweenRegistry : fw.Registry Nat :=
  ⟨[([s, version 1], 1), ([s, version 4, p, version 1], 2), ([s, version 5], 3)]⟩

/-- Registry whose keys are the single version components `/v1` and `/v5`. -/
def rootRegistry : fw.Registry Nat :=
  ⟨[([version 1], 1), ([version 5], 2)]⟩

/-- Registry with the keys `/s/v1` and `/s/v2` of one family. -/
def pairRegistry : fw.Registry Nat :=
  ⟨[([s, version 1], 1), ([s, version 2], 2)]⟩

/-- Registry with the keys `/s/v1`, `/s/v3` and `/s/v5` of one family. -/
def plainRegistry : fw.Registry Nat :=
  ⟨[([s, version 1], 1), ([s, version 3], 2), ([s, version 5], 3)]⟩

/-- The name `/a`. -/
def nameA : Name := [⟨[97]⟩]

/-- The name `/b`. -/
def nameB : Name := [⟨[98]⟩]

/-- The name `/a/b`. -/
def nameAB : Name := [⟨[97]⟩, ⟨[98]⟩]

/-- The name `/a/b/c`. -/
def nameABC : Name := [⟨[97]⟩, ⟨[98]⟩, ⟨[99]⟩]

/-- Forwarding entry for `/b` with one next hop. -/
def entryB : fib.Entry := { getPrefix := nameB, getNextHops := [(7, 1)] }

/-- The default route: the entry for `/` with one next hop. -/
def entryDefault : fib.Entry := { getPrefix := [], getNextHops := [(9, 1)] }

/-- Forwarder without a default route: its table only holds `/b`; nothing is in the producer
region. -/
def coreForwarder : Forwarder := { fib := ⟨[entryB]⟩, isInProducerRegion := fun _ => false }

/-- Forwarder with a default route and a route for `/b`. -/
def edgeForwarder : Forwarder :=
  { fib := ⟨[entryDefault, entryB]⟩, isInProducerRegion := fun _ => false }

/-- Forwarder whose table holds `/`, `/a` and `/a/b`. -/
def treeForwarder : Forwarder :=
  { fib := ⟨[⟨[], [(1, 0)]⟩, ⟨nameA, [(2, 0)]⟩, ⟨nameAB, [(3, 0)]⟩]⟩,
    isInProducerRegion := fun _ => false }

/-- Link with the delegations `/a` then `/b`. -/
def linkAB : Link := { delegations := [(1, nameA), (2, nameB)] }

/-- Every Interest object is an Interest for `/a/b/c` carrying `linkAB` and no selected
delegation. -/
def linkStore : InterestStore :=
  fun _ => { name := nameABC, link := some linkAB, selectedDelegation := none }

/-- Every Interest object carries `linkAB` with `/b` already selected. -/
def selectedStore : InterestStore :=
  fun _ => { name := nameABC, link := some linkAB, selectedDelegation := some nameB }

/-- Every Interest object is an Interest for `/a/b/c` without a Link. -/
def plainStore : InterestStore :=
  fun _ => { name := nameABC, link := none, selectedDelegation := none }

/-- PIT entry whose first in-record holds the Interest object of the entry itself. -/
def sharedPit : pit.Entry := { interest := 0, inRecords := [⟨5, 0⟩, ⟨6, 1⟩] }

/-- PIT entry without in-records. -/
def emptyPit : pit.Entry := { interest := 0, inRecords := [] }

/-- PIT entry whose only in-record holds another Interest object than the entry. -/
def unsharedPit : pit.Entry := { interest := 0, inRecords := [⟨5, 1⟩] }

/-- The generic component `strategyA`. -/
def strategyA : Component := ⟨[115, 116, 114, 97, 116, 101, 103, 121, 65]⟩

/-- Registry whose only key is `/strategyA/%FD%01`. -/
def strategyARegistry : fw.Registry Nat := ⟨[([strategyA, version 1], 1)]⟩

/-- Registry with the key `/strategyA/%FD%01` and the key `/strategyA/x/%FD%01` of a nested
family. -/
def strategyANestedRegistry : fw.Registry Nat :=
  ⟨[([strategyA, version 1], 1), ([strategyA, x, version 1], 2)]⟩

/-- Factory that reports the requested instance name. -/
def echoFactory (id : Nat) : fw.CreateFunc :=
  fun _ instanceName => { getInstanceName := instanceName, m_id := id }

/-- Factory whose instances report an empty instance name. -/
def namelessFactory : fw.CreateFunc :=
  fun _ _ => { getInstanceName := [], m_id := 0 }

/-- Registry of factories with the keys `/s/v1` and `/s/v3`. -/
def factoryRegistry : fw.Registry fw.CreateFunc :=
  ⟨[([s, version 1], echoFactory 1), ([s, version 3], echoFactory 3)]⟩

/-- Link with the delegations `/a` then `/a/b`. -/
def linkNoRoute : Link := { delegations := [(1, nameA), (2, nameAB)] }

/-- Every Interest object carries `linkNoRoute` and no selected delegation. -/
def noRouteStore : InterestStore :=
  fun _ => { name := nameABC, link := some linkNoRoute, selectedDelegation := none }

end Example

/-! ## Order lemmas -/

section ListOrder

variable {α : Type} [LinearOrder α]

theorem cons_lt_cons_iff_lex {a b : α} {l₁ l₂ : List α} :
    a :: l₁ < b :: l₂ ↔ a < b ∨ (a = b ∧ l₁ < l₂) := by
  constructor
  · intro h
    cases h with
    | cons h => exact Or.inr ⟨rfl, h⟩
    | rel h => exact Or.inl h
  · rintro (h | ⟨rfl, h⟩)
    · exact List.Lex.rel h
    · exact List.Lex.cons h

theorem not_lt_nil_lex (l : List α) : ¬ l < [] := by
  intro h; cases h

theorem le_of_isPrefix {l₁ l₂ : List α} (h : l₁ <+: l₂) : l₁ ≤ l₂ := by
  obtain ⟨t, rfl⟩ := h
  induction l₁ with
  | nil => exact List.nil_le
  | cons a l ih => exact List.cons_le_cons a ih

/-- Names below `p ++ [c']`, where `c'` is the immediate successor of `c`, are the names
below `p ++ [c]` together with the names that extend `p ++ [c]`. -/
theorem lt_append_succ_iff {c c' : α} (hlt : c < c') (hmin : ∀ d, c < d → c' ≤ d)
    (p k : List α) : k < p ++ [c'] ↔ k < p ++ [c] ∨ (p ++ [c]) <+: k := by
  induction p generalizing k with
  | nil =>
    cases k with
    | nil => simp [List.nil_lt_cons]
    | cons d k' =>
      simp only [List.nil_append, cons_lt_cons_iff_lex, not_lt_nil_lex, and_false, or_false,
        List.cons_prefix_cons, List.nil_prefix, and_true]
      constructor
      · intro h
        rcases lt_trichotomy d c with h1 | h1 | h1
        · exact Or.inl h1
        · exact Or.inr h1.symm
        · exact absurd (hmin d h1) (not_le.mpr h)
      · rintro (h | h)
        · exact h.trans hlt
        · exact h ▸ hlt
  | cons a p ih =>
    cases k with
    | nil => simp [List.nil_lt_cons]
    | cons d k' =>
      simp only [List.cons_append, cons_lt_cons_iff_lex, List.cons_prefix_cons, ih k']
      constructor
      · rintro (h | ⟨rfl, h | h⟩)
        · exact Or.inl (Or.inl h)
        · exact Or.inl (Or.inr ⟨rfl, h⟩)
        · exact Or.inr ⟨rfl, h⟩
      · rintro ((h | ⟨rfl, h⟩) | ⟨rfl, h⟩)
        · exact Or.inl h
        · exact Or.inr ⟨rfl, Or.inl h⟩
        · exact Or.inr ⟨rfl, Or.inr h⟩

end ListOrder

namespace Component

theorem lt_iff (c d : Component) :
    c < d ↔ c.value.length < d.value.length ∨
      (c.value.length = d.value.length ∧ c.value < d.value) := by
  show c.key < d.key ↔ _
  simp [key, Prod.Lex.lt_iff]

theorem le_iff (c d : Component) :
    c ≤ d ↔ c.value.length < d.value.length ∨
      (c.value.length = d.value.length ∧ c.value ≤ d.value) := by
  show c.key ≤ d.key ↔ _
  simp [key, Prod.Lex.le_iff]

end Component

section ListOrder
variable {α : Type} [LinearOrder α]

theorem cons_le_cons_iff_lex {a b : α} {l₁ l₂ : List α} :
    a :: l₁ ≤ b :: l₂ ↔ a < b ∨ (a = b ∧ l₁ ≤ l₂) := by
  rw [le_iff_lt_or_eq, cons_lt_cons_iff_lex, le_iff_lt_or_eq, List.cons.injEq]
  constructor
  · rintro ((h | ⟨rfl, h⟩) | ⟨rfl, rfl⟩)
    · exact Or.inl h
    · exact Or.inr ⟨rfl, Or.inl h⟩
    · exact Or.inr ⟨rfl, Or.inr rfl⟩
  · rintro (h | ⟨rfl, h | rfl⟩)
    · exact Or.inl (Or.inl h)
    · exact Or.inl (Or.inr ⟨rfl, h⟩)
    · exact Or.inr ⟨rfl, rfl⟩

end ListOrder

namespace Component

theorem byte_add_one_eq_zero (b : Fin 256) : (b + 1 == 0) = true ↔ b = 255 := by
  rw [beq_iff_eq, Fin.ext_iff, Fin.ext_iff, Fin.val_add]
  have := b.isLt
  simp only [Fin.val_one, Fin.val_zero]
  show _ ↔ b.val = 255
  omega

theorem byte_lt_add_one {b : Fin 256} (h : b ≠ 255) : b < b + 1 := by
  rw [Fin.lt_def, Fin.val_add]
  have := b.isLt
  have h2 : b.val ≠ 255 := fun e => h (Fin.ext e)
  simp only [Fin.val_one]
  omega

theorem byte_add_one_le {b e : Fin 256} (h : b < e) : b + 1 ≤ e := by
  rw [Fin.lt_def] at h
  rw [Fin.le_def, Fin.val_add]
  have := e.isLt
  simp only [Fin.val_one]
  omega

theorem incBytes_length (bs : List (Fin 256)) : (incBytes bs).1.length = bs.length := by
  induction bs with
  | nil => rfl
  | cons b bs ih =>
    simp only [incBytes]
    split <;> simp [ih]

theorem replicate_zero_le (d : List (Fin 256)) : List.replicate d.length 0 ≤ d := by
  induction d with
  | nil => exact le_refl _
  | cons e d ih =>
    rw [List.length_cons, List.replicate_succ, cons_le_cons_iff_lex]
    rcases (Fin.zero_le e).lt_or_eq with h | h
    · exact Or.inl h
    · exact Or.inr ⟨h, ih⟩

theorem le_replicate_max (d : List (Fin 256)) : d ≤ List.replicate d.length 255 := by
  induction d with
  | nil => exact le_refl _
  | cons e d ih =>
    rw [List.length_cons, List.replicate_succ, cons_le_cons_iff_lex]
    have h255 : e ≤ 255 := Fin.le_last e
    rcases h255.lt_or_eq with h | h
    · exact Or.inl h
    · exact Or.inr ⟨h, ih⟩

theorem incBytes_overflow (bs : List (Fin 256)) (h : (incBytes bs).2 = true) :
    bs = List.replicate bs.length 255 ∧ (incBytes bs).1 = List.replicate bs.length 0 := by
  induction bs with
  | nil => exact ⟨rfl, rfl⟩
  | cons b bs ih =>
    simp only [incBytes] at h ⊢
    split at h
    · rename_i hov
      simp only [hov, if_true] at h ⊢
      have hb := (byte_add_one_eq_zero b).mp h
      obtain ⟨h1, h2⟩ := ih hov
      subst hb
      refine ⟨?_, ?_⟩
      · rw [List.length_cons, List.replicate_succ, ← h1]
      · rw [List.length_cons, List.replicate_succ, ← h2]; rfl
    · simp at h

theorem incBytes_no_overflow (bs : List (Fin 256)) (h : (incBytes bs).2 = false) :
    bs < (incBytes bs).1 ∧
      ∀ d : List (Fin 256), d.length = bs.length → bs < d → (incBytes bs).1 ≤ d := by
  induction bs with
  | nil => simp [incBytes] at h
  | cons b bs ih =>
    simp only [incBytes] at h ⊢
    by_cases hov : (incBytes bs).2 = true
    · simp only [hov, if_true] at h ⊢
      have hb : b ≠ 255 := fun e => by
        rw [(byte_add_one_eq_zero b).mpr e] at h; exact absurd h (by decide)
      obtain ⟨h1, h2⟩ := incBytes_overflow bs hov
      refine ⟨cons_lt_cons_iff_lex.mpr (Or.inl (byte_lt_add_one hb)), ?_⟩
      intro d hd hlt
      cases d with
      | nil => exact absurd hlt (not_lt_nil_lex _)
      | cons e d =>
        have hlen : d.length = bs.length := by simpa using hd
        rcases cons_lt_cons_iff_lex.mp hlt with hbe | ⟨rfl, ht⟩
        · rw [cons_le_cons_iff_lex]
          rcases (byte_add_one_le hbe).lt_or_eq with h3 | h3
          · exact Or.inl h3
          · refine Or.inr ⟨h3, ?_⟩
            rw [h2, ← hlen]; exact replicate_zero_le d
        · exfalso
          have := le_replicate_max d
          rw [hlen, ← h1] at this
          exact absurd ht (not_lt.mpr this)
    · have hov2 : (incBytes bs).2 = false := by simpa using hov
      simp only [hov2] at h ⊢
      obtain ⟨h1, h2⟩ := ih hov2
      refine ⟨cons_lt_cons_iff_lex.mpr (Or.inr ⟨rfl, h1⟩), ?_⟩
      intro d hd hlt
      cases d with
      | nil => exact absurd hlt (not_lt_nil_lex _)
      | cons e d =>
        have hlen : d.length = bs.length := by simpa using hd
        rcases cons_lt_cons_iff_lex.mp hlt with hbe | ⟨rfl, ht⟩
        · exact cons_le_cons_iff_lex.mpr (Or.inl hbe)
        · exact cons_le_cons_iff_lex.mpr (Or.inr ⟨rfl, h2 d hlen ht⟩)

theorem lt_getSuccessor (c : Component) : c < c.getSuccessor := by
  rw [lt_iff]
  unfold getSuccessor
  by_cases hov : (incBytes c.value).2 = true
  · simp only [hov, if_true]
    left
    simp [incBytes_length]
  · have hov2 : (incBytes c.value).2 = false := by simpa using hov
    simp only [hov2]
    right
    exact ⟨(incBytes_length _).symm, (incBytes_no_overflow _ hov2).1⟩

theorem getSuccessor_le_of_lt (c d : Component) (h : c < d) : c.getSuccessor ≤ d := by
  rw [lt_iff] at h
  rw [le_iff]
  unfold getSuccessor
  by_cases hov : (incBytes c.value).2 = true
  · simp only [hov, if_true]
    obtain ⟨h1, h2⟩ := incBytes_overflow _ hov
    rcases h with h | ⟨hl, hv⟩
    · simp only [List.length_append, incBytes_length, List.length_singleton]
      rcases (Nat.succ_le_of_lt h).lt_or_eq with h3 | h3
      · exact Or.inl h3
      · refine Or.inr ⟨h3, ?_⟩
        rw [h2]
        have : List.replicate c.value.length (0 : Fin 256) ++ [0]
            = List.replicate d.value.length 0 := by
          rw [← h3, List.replicate_succ']
        rw [this]; exact replicate_zero_le _
    · exfalso
      have := le_replicate_max d.value
      rw [← hl, ← h1] at this
      exact absurd hv (not_lt.mpr this)
  · have hov2 : (incBytes c.value).2 = false := by simpa using hov
    simp only [hov2]
    rcases h with h | ⟨hl, hv⟩
    · left; simpa [incBytes_length] using h
    · right
      exact ⟨by simpa [incBytes_length] using hl, (incBytes_no_overflow _ hov2).2 _ hl.symm hv⟩

end Component

namespace Name

theorem lt_getSuccessor_iff (n k : Name) (hn : n ≠ []) :
    k < n.getSuccessor ↔ k < n ∨ n <+: k := by
  unfold getSuccessor
  obtain ⟨p, c, rfl⟩ : ∃ p c, n = p ++ [c] :=
    ⟨n.dropLast, n.getLast hn, (List.dropLast_append_getLast hn).symm⟩
  simp only [List.getLast?_concat, List.dropLast_concat]
  exact lt_append_succ_iff c.lt_getSuccessor c.getSuccessor_le_of_lt p k

theorem isPrefixOf_iff (a b : Name) : a.isPrefixOf b = true ↔ a <+: b := by
  unfold isPrefixOf
  exact List.isPrefixOf_iff_prefix

end Name

namespace fw
namespace Registry

variable {φ : Type}

theorem keyAt_eq (reg : Registry φ) (i : Nat) : reg.keyAt i = reg.keys[i]? := by
  simp [keyAt, keys]

theorem keyAt_lt_end {reg : Registry φ} {i : Nat} {k : Name} (h : reg.keyAt i = some k) :
    i < reg.end := by
  rw [keyAt_eq] at h
  have := (List.getElem?_eq_some_iff.mp h).1
  simpa [keys, Registry.end] using this

theorem keyAt_isSome {reg : Registry φ} {i : Nat} (h : i < reg.end) :
    ∃ k, reg.keyAt i = some k := by
  rw [keyAt_eq]
  have h2 : i < reg.keys.length := by simpa [keys, Registry.end] using h
  exact ⟨reg.keys[i], List.getElem?_eq_getElem h2⟩

theorem keyAt_end (reg : Registry φ) : reg.keyAt reg.end = none := by
  rw [keyAt_eq]
  exact List.getElem?_eq_none (by simp [keys, Registry.end])

theorem mem_keys_iff {reg : Registry φ} {k : Name} :
    k ∈ reg.keys ↔ ∃ i, reg.keyAt i = some k := by
  simp only [keyAt_eq]
  exact List.mem_iff_getElem?

theorem keyAt_lt_keyAt {reg : Registry φ} (wf : reg.WellFormed) {i j : Nat} {a b : Name}
    (hi : reg.keyAt i = some a) (hj : reg.keyAt j = some b) (hij : i < j) : a < b := by
  rw [keyAt_eq] at hi hj
  obtain ⟨hi1, rfl⟩ := List.getElem?_eq_some_iff.mp hi
  obtain ⟨hj1, rfl⟩ := List.getElem?_eq_some_iff.mp hj
  exact (List.pairwise_iff_getElem.mp wf) i j hi1 hj1 hij

theorem keyAt_lt_keyAt_iff {reg : Registry φ} (wf : reg.WellFormed) {i j : Nat} {a b : Name}
    (hi : reg.keyAt i = some a) (hj : reg.keyAt j = some b) : a < b ↔ i < j := by
  refine ⟨fun h => ?_, keyAt_lt_keyAt wf hi hj⟩
  rcases lt_trichotomy i j with h1 | h1 | h1
  · exact h1
  · subst h1; rw [hi] at hj; cases hj; exact absurd h (lt_irrefl _)
  · exact absurd h (lt_asymm (keyAt_lt_keyAt wf hj hi h1))

theorem keyAt_le_keyAt_iff {reg : Registry φ} (wf : reg.WellFormed) {i j : Nat} {a b : Name}
    (hi : reg.keyAt i = some a) (hj : reg.keyAt j = some b) : a ≤ b ↔ i ≤ j := by
  rw [← not_lt, ← not_lt, keyAt_lt_keyAt_iff wf hj hi]

theorem lower_bound_le_end (reg : Registry φ) (k : Name) : reg.lower_bound k ≤ reg.end :=
  List.findIdx_le_length _

/-- In a well-formed registry the keys below `k` are exactly those at positions before
`lower_bound k`. -/
theorem lt_lower_bound_iff {reg : Registry φ} (wf : reg.WellFormed) (k : Name) {j : Nat}
    {a : Name} (hj : reg.keyAt j = some a) : j < reg.lower_bound k ↔ a < k := by
  have hjl : j < reg.entries.length := keyAt_lt_end hj
  have hje : reg.entries[j].1 = a := by
    have h2 : reg.entries[j]? = some reg.entries[j] := List.getElem?_eq_getElem hjl
    simpa [keyAt, h2] using hj
  constructor
  · intro h
    have h1 := List.not_of_lt_findIdx h
    rw [← hje]
    simpa using h1
  · intro h
    by_contra hlt
    have hle : reg.lower_bound k ≤ j := not_lt.mp hlt
    have hi : reg.lower_bound k < reg.entries.length := lt_of_le_of_lt hle hjl
    have hb : reg.keyAt (reg.lower_bound k) = some reg.entries[reg.lower_bound k].1 := by
      simp [keyAt, List.getElem?_eq_getElem hi]
    have h1 : ¬ reg.entries[reg.lower_bound k].1 < k := by
      have h3 := @List.findIdx_getElem _ (fun e : Name × φ => decide (¬ e.1 < k)) reg.entries hi
      simp only [decide_eq_true_eq] at h3
      exact h3
    have h4 := (keyAt_le_keyAt_iff wf hb hj).mpr hle
    exact h1 (lt_of_le_of_lt h4 h)

end Registry
namespace Strategy

theorem parseInstanceName.loop_none (input : Name) (i : Nat)
    (h : ∀ j c, 1 ≤ j → j ≤ i → input[j]? = some c → c.isVersion = false) :
    parseInstanceName.loop input i = { strategyName := input, version := none, parameters := [] } := by
  induction i with
  | zero => rfl
  | succ i ih =>
    have ih2 := ih (fun j c h1 h2 h3 => h j c h1 (Nat.le_succ_of_le h2) h3)
    unfold parseInstanceName.loop
    cases hc : input[i + 1]? with
    | none => simpa using ih2
    | some c =>
      have := h (i + 1) c (by omega) (le_refl _) hc
      simpa [this] using ih2

theorem parseInstanceName.loop_found (input : Name) (i j : Nat) (c : Component)
    (hj1 : 1 ≤ j) (hji : j ≤ i) (hc : input[j]? = some c) (hv : c.isVersion = true)
    (h : ∀ j' c', j < j' → j' ≤ i → input[j']? = some c' → c'.isVersion = false) :
    parseInstanceName.loop input i =
      { strategyName := input.take (j + 1), version := some c.toVersion,
        parameters := input.drop (j + 1) } := by
  induction i with
  | zero => omega
  | succ i ih =>
    unfold parseInstanceName.loop
    rcases Nat.lt_or_eq_of_le hji with hlt | heq
    · have ih2 := ih (by omega) (fun j' c' h1 h2 h3 => h j' c' h1 (Nat.le_succ_of_le h2) h3)
      cases hc2 : input[i + 1]? with
      | none => simpa using ih2
      | some c2 =>
        have := h (i + 1) c2 hlt (le_refl _) hc2
        simpa [this] using ih2
    · subst heq
      simp [hc, hv, Name.getPrefix, Name.getSubName]

/-- A name with no version component after its first component parses as unversioned. -/
theorem parseInstanceName_unversioned (input : Name)
    (h : ∀ c ∈ input.tail, c.isVersion = false) :
    parseInstanceName input = { strategyName := input, version := none, parameters := [] } := by
  apply parseInstanceName.loop_none
  intro j c hj1 _ hc
  apply h
  obtain ⟨j', rfl⟩ : ∃ j', j = j' + 1 := ⟨j - 1, by omega⟩
  cases input with
  | nil => simp at hc
  | cons a t =>
    simp only [List.getElem?_cons_succ] at hc
    exact List.getElem?_mem hc

/-- A name `F ++ [v] ++ P` with `F` non-empty, `v` a version component and no version
component in `P` parses at `v`. -/
theorem parseInstanceName_versioned (F P : Name) (v : Component) (hF : F ≠ [])
    (hv : v.isVersion = true) (hP : ∀ c ∈ P, c.isVersion = false) :
    parseInstanceName (F ++ [v] ++ P) =
      { strategyName := F ++ [v], version := some v.toVersion, parameters := P } := by
  have hlen : 1 ≤ F.length := List.length_pos.mpr hF
  have hget : (F ++ [v] ++ P)[F.length]? = some v := by
    rw [List.append_assoc, List.getElem?_append_right (le_refl _)]
    simp
  have := parseInstanceName.loop_found (F ++ [v] ++ P) ((F ++ [v] ++ P).length - 1) F.length v
    hlen (by simp) hget hv (by
      intro j' c' h1 _ h3
      apply hP
      rw [List.getElem?_append_right (by simp; omega)] at h3
      exact List.getElem?_mem h3)
  rw [parseInstanceName, this]
  have h1 : List.take (F.length + 1) (F ++ [v] ++ P) = F ++ [v] := by
    have : F.length + 1 = (F ++ [v]).length := by simp
    rw [this, List.take_left']; rfl
  have h2 : List.drop (F.length + 1) (F ++ [v] ++ P) = P := by
    have : F.length + 1 = (F ++ [v]).length := by simp
    rw [this, List.drop_left']; rfl
  rw [h1, h2]

end Strategy
namespace Registry

variable {φ : Type}

theorem keyAt_lower_bound {reg : Registry φ} (wf : reg.WellFormed) (k : Name) {a : Name}
    (h : reg.keyAt (reg.lower_bound k) = some a) :
    k ≤ a ∧ ∀ b ∈ reg.keys, k ≤ b → a ≤ b := by
  have h1 : ¬ a < k := fun hlt => lt_irrefl _ ((lt_lower_bound_iff wf k h).mpr hlt)
  refine ⟨not_lt.mp h1, ?_⟩
  intro b hb hkb
  obtain ⟨j, hj⟩ := mem_keys_iff.mp hb
  have h2 : ¬ j < reg.lower_bound k := fun hlt =>
    absurd ((lt_lower_bound_iff wf k hj).mp hlt) (not_lt.mpr hkb)
  exact (keyAt_le_keyAt_iff wf h hj).mpr (not_lt.mp h2)

theorem lower_bound_eq_of_least {reg : Registry φ} (wf : reg.WellFormed) (k : Name) {i : Nat}
    {a : Name} (hi : reg.keyAt i = some a) (hka : k ≤ a)
    (hleast : ∀ b ∈ reg.keys, k ≤ b → a ≤ b) : reg.lower_bound k = i := by
  have h1 : ¬ i < reg.lower_bound k := fun hlt =>
    absurd ((lt_lower_bound_iff wf k hi).mp hlt) (not_lt.mpr hka)
  rcases Nat.lt_or_ge (reg.lower_bound k) i with h2 | h2
  · exfalso
    obtain ⟨b, hb⟩ := keyAt_isSome (lt_trans h2 (keyAt_lt_end hi))
    have h3 := (keyAt_lower_bound wf k hb).1
    have h4 := hleast b (mem_keys_iff.mpr ⟨_, hb⟩) h3
    have h5 := (keyAt_le_keyAt_iff wf hi hb).mp h4
    omega
  · omega

theorem lower_bound_eq_end {reg : Registry φ} (wf : reg.WellFormed) (k : Name)
    (h : ∀ b ∈ reg.keys, b < k) : reg.lower_bound k = reg.end := by
  rcases (lower_bound_le_end reg k).lt_or_eq with h1 | h1
  · exfalso
    obtain ⟨b, hb⟩ := keyAt_isSome h1
    have h3 := (keyAt_lower_bound wf k hb).1
    exact absurd (h b (mem_keys_iff.mpr ⟨_, hb⟩)) (not_lt.mpr h3)
  · exact h1

end Registry

namespace Strategy

variable {φ : Type}

theorem find_eq_end_or_keyAt (reg : Registry φ) (name : Name) :
    find reg name = reg.end ∨ ∃ a, reg.keyAt (find reg name) = some a := by
  unfold find
  simp only
  split
  · split
    · split
      · rename_i k hk
        split
        · exact Or.inr ⟨k, hk⟩
        · exact Or.inl rfl
      · exact Or.inl rfl
    · exact Or.inl rfl
  · split
    · split
      · split
        · rename_i k hk
          split
          · exact Or.inr ⟨k, hk⟩
          · exact Or.inl rfl
        · exact Or.inl rfl
      · exact Or.inl rfl
    · exact Or.inl rfl

theorem find_versioned_keyAt {reg : Registry φ} (wf : reg.WellFormed) {name S P : Name}
    {n : Nat} (hp : parseInstanceName name = ⟨S, some n, P⟩) {a : Name}
    (h : reg.keyAt (find reg name) = some a) :
    S ≤ a ∧ S.dropLast <+: a ∧ ∀ b ∈ reg.keys, S ≤ b → a ≤ b := by
  unfold find at h
  simp only [hp, Option.isSome_some, if_true] at h
  split at h
  · split at h
    · rename_i k hk
      split at h
      · rename_i hpre
        rw [hk] at h
        cases h
        have := Registry.keyAt_lower_bound wf S hk
        exact ⟨this.1, (Name.isPrefixOf_iff _ _).mp hpre, this.2⟩
      · rw [Registry.keyAt_end] at h; cases h
    · rw [Registry.keyAt_end] at h; cases h
  · rw [Registry.keyAt_end] at h; cases h

theorem find_versioned_of_least {reg : Registry φ} (wf : reg.WellFormed) {name S P : Name}
    {n : Nat} (hp : parseInstanceName name = ⟨S, some n, P⟩) {i : Nat} {a : Name}
    (hi : reg.keyAt i = some a) (hSa : S ≤ a) (hpre : S.dropLast <+: a)
    (hleast : ∀ b ∈ reg.keys, S ≤ b → a ≤ b) : find reg name = i := by
  have hlb := Registry.lower_bound_eq_of_least wf S hi hSa hleast
  have hne : i ≠ reg.end := ne_of_lt (Registry.keyAt_lt_end hi)
  unfold find
  simp only [hp, Option.isSome_some, if_true, hlb, hi, bne_iff_ne, ne_eq, hne, not_false_eq_true,
    Name.getPrefixMinus1, (Name.isPrefixOf_iff _ _).mpr hpre]

theorem find_versioned_not_found {reg : Registry φ} (wf : reg.WellFormed) {name S P : Name}
    {n : Nat} (hp : parseInstanceName name = ⟨S, some n, P⟩)
    (h : ∀ a ∈ reg.keys, S ≤ a → (∀ b ∈ reg.keys, S ≤ b → a ≤ b) → ¬ S.dropLast <+: a) :
    find reg name = reg.end := by
  rcases find_eq_end_or_keyAt reg name with h1 | ⟨a, ha⟩
  · exact h1
  · have := find_versioned_keyAt wf hp ha
    exact absurd this.2.1 (h a (Registry.mem_keys_iff.mpr ⟨_, ha⟩) this.1 this.2.2)

theorem find_unversioned_keyAt {reg : Registry φ} (wf : reg.WellFormed) {name S P : Name}
    (hp : parseInstanceName name = ⟨S, none, P⟩) {a : Name}
    (h : reg.keyAt (find reg name) = some a) :
    S ≠ [] ∧ S <+: a ∧ ∀ b ∈ reg.keys, S <+: b → b ≤ a := by
  unfold find at h
  simp only [hp, Option.isSome_none, Bool.false_eq_true, if_false] at h
  split at h
  · rename_i hS
    have hS2 : S ≠ [] := by simpa using hS
    split at h
    · rename_i hb
      split at h
      · rename_i k hk
        split at h
        · rename_i hpre
          rw [hk] at h
          cases h
          refine ⟨hS2, (Name.isPrefixOf_iff _ _).mp hpre, ?_⟩
          intro b hb hSb
          obtain ⟨j, hj⟩ := Registry.mem_keys_iff.mp hb
          have h1 : b < S.getSuccessor := (Name.lt_getSuccessor_iff S b hS2).mpr (Or.inr hSb)
          have h2 := (Registry.lt_lower_bound_iff wf _ hj).mpr h1
          exact (Registry.keyAt_le_keyAt_iff wf hj hk).mpr (by omega)
        · rw [Registry.keyAt_end] at h; cases h
      · rw [Registry.keyAt_end] at h; cases h
    · rw [Registry.keyAt_end] at h; cases h
  · rw [Registry.keyAt_end] at h; cases h

theorem find_unversioned_of_greatest {reg : Registry φ} (wf : reg.WellFormed)
    {name S P : Name} (hp : parseInstanceName name = ⟨S, none, P⟩) (hS : S ≠ []) {i : Nat}
    {a : Name} (hi : reg.keyAt i = some a) (hpre : S <+: a)
    (hgreatest : ∀ b ∈ reg.keys, S <+: b → b ≤ a) : find reg name = i := by
  have h1 : a < S.getSuccessor := (Name.lt_getSuccessor_iff S a hS).mpr (Or.inr hpre)
  have h2 : i < reg.lower_bound S.getSuccessor := (Registry.lt_lower_bound_iff wf _ hi).mpr h1
  have h3 : reg.lower_bound S.getSuccessor - 1 < reg.end :=
    lt_of_lt_of_le (by omega) (Registry.lower_bound_le_end reg S.getSuccessor)
  obtain ⟨b, hb⟩ := Registry.keyAt_isSome h3
  have h4 : b < S.getSuccessor := (Registry.lt_lower_bound_iff wf _ hb).mp (by omega)
  have h5 : a ≤ b := (Registry.keyAt_le_keyAt_iff wf hi hb).mpr (by omega)
  have h6 : S <+: b := by
    rcases (Name.lt_getSuccessor_iff S b hS).mp h4 with h7 | h7
    · exact absurd (lt_of_le_of_lt ((le_of_isPrefix hpre).trans h5) h7) (lt_irrefl _)
    · exact h7
  have h8 : b ≤ a := hgreatest b (Registry.mem_keys_iff.mpr ⟨_, hb⟩) h6
  have h9 : reg.lower_bound S.getSuccessor - 1 = i :=
    le_antisymm ((Registry.keyAt_le_keyAt_iff wf hb hi).mp h8)
      ((Registry.keyAt_le_keyAt_iff wf hi hb).mp h5)
  have h10 : reg.lower_bound S.getSuccessor ≠ reg.begin := by
    simp only [Registry.begin]; omega
  have h11 : S.isEmpty = false := by
    cases S with
    | nil => exact absurd rfl hS
    | cons _ _ => rfl
  unfold find
  simp only [hp, Option.isSome_none, Bool.false_eq_true, if_false, h11, Bool.not_false, if_true,
    bne_iff_ne, ne_eq, h10, not_false_eq_true, h9, hi, (Name.isPrefixOf_iff _ _).mpr hpre]

theorem find_unversioned_not_found {reg : Registry φ} (wf : reg.WellFormed) {name S P : Name}
    (hp : parseInstanceName name = ⟨S, none, P⟩) (h : ∀ b ∈ reg.keys, ¬ S <+: b) :
    find reg name = reg.end := by
  rcases find_eq_end_or_keyAt reg name with h1 | ⟨a, ha⟩
  · exact h1
  · have := find_unversioned_keyAt wf hp ha
    exact absurd this.2.1 (h a (Registry.mem_keys_iff.mpr ⟨_, ha⟩))

end Strategy
end fw

section ListOrder
variable {α : Type} [LinearOrder α]

theorem append_lt_append_left_iff (p a b : List α) : p ++ a < p ++ b ↔ a < b := by
  induction p with
  | nil => rfl
  | cons c p ih =>
    simp only [List.cons_append, cons_lt_cons_iff_lex, lt_irrefl, true_and, false_or, ih]

theorem append_le_append_left_iff (p a b : List α) : p ++ a ≤ p ++ b ↔ a ≤ b := by
  rw [← not_lt, ← not_lt, append_lt_append_left_iff]

theorem singleton_lt_singleton_iff (a b : α) : [a] < [b] ↔ a < b := by
  simp [cons_lt_cons_iff_lex, not_lt_nil_lex]

theorem singleton_le_singleton_iff (a b : α) : [a] ≤ [b] ↔ a ≤ b := by
  rw [← not_lt, ← not_lt, singleton_lt_singleton_iff]

/-- A name between two extensions of `p` extends `p`. -/
theorem isPrefix_of_between (p a b k : List α) (h1 : p ++ a ≤ k) (h2 : k ≤ p ++ b) :
    p <+: k := by
  induction p generalizing k with
  | nil => exact List.nil_prefix
  | cons c p ih =>
    cases k with
    | nil =>
      exact absurd (List.nil_lt_cons c (p ++ a)) (not_lt.mpr h1)
    | cons d k =>
      simp only [List.cons_append, cons_le_cons_iff_lex] at h1 h2
      rcases h1 with h1 | ⟨rfl, h1⟩
      · rcases h2 with h2 | ⟨rfl, _⟩
        · exact absurd h1 (lt_asymm h2)
        · exact absurd h1 (lt_irrefl _)
      · rcases h2 with h2 | ⟨_, h2⟩
        · exact absurd h2 (lt_irrefl _)
        · exact List.cons_prefix_cons.mpr ⟨rfl, ih k h1 h2⟩

end ListOrder

namespace fw
namespace Strategy

variable {φ : Type}

theorem find_unversioned_found {reg : Registry φ} (wf : reg.WellFormed) {name S P : Name}
    (hp : parseInstanceName name = ⟨S, none, P⟩) (hS : S ≠ []) {b0 : Name}
    (hb0 : b0 ∈ reg.keys) (hpre : S <+: b0) : ∃ a, reg.keyAt (find reg name) = some a := by
  obtain ⟨j, hj⟩ := Registry.mem_keys_iff.mp hb0
  have h1 : b0 < S.getSuccessor := (Name.lt_getSuccessor_iff S b0 hS).mpr (Or.inr hpre)
  have h2 : j < reg.lower_bound S.getSuccessor := (Registry.lt_lower_bound_iff wf _ hj).mpr h1
  have h3 : reg.lower_bound S.getSuccessor - 1 < reg.end :=
    lt_of_lt_of_le (by omega) (Registry.lower_bound_le_end reg S.getSuccessor)
  obtain ⟨b, hb⟩ := Registry.keyAt_isSome h3
  have h4 : b < S.getSuccessor := (Registry.lt_lower_bound_iff wf _ hb).mp (by omega)
  have h5 : b0 ≤ b := (Registry.keyAt_le_keyAt_iff wf hj hb).mpr (by omega)
  have h6 : S <+: b := by
    rcases (Name.lt_getSuccessor_iff S b hS).mp h4 with h7 | h7
    · exact absurd (lt_of_le_of_lt ((le_of_isPrefix hpre).trans h5) h7) (lt_irrefl _)
    · exact h7
  have h10 : reg.lower_bound S.getSuccessor ≠ reg.begin := by
    simp only [Registry.begin]; omega
  have h11 : S.isEmpty = false := by
    cases S with
    | nil => exact absurd rfl hS
    | cons _ _ => rfl
  refine ⟨b, ?_⟩
  unfold find
  simp only [hp, Option.isSome_none, Bool.false_eq_true, if_false, h11, Bool.not_false, if_true,
    bne_iff_ne, ne_eq, h10, not_false_eq_true, hb, (Name.isPrefixOf_iff _ _).mpr h6]

/-! ## Claims on `Strategy::find` -/

/-- C1 (as stated, refuted): the registry holds `/s/v1`, `/s/v2` and the key `/s/x/v1` of a
nested family; `/s/v1` and `/s/v2` are the only keys that are `/s` followed by one version
component, yet `find(/s)` resolves to `/s/x/v1` and not to `/s/v2`. -/
theorem find_unversioned_nested_family_counterexample :
    Example.nestedRegistry.WellFormed ∧
    Example.nestedRegistry.keys
      = [[Example.s, Example.version 1], [Example.s, Example.version 2],
         [Example.s, Example.x, Example.version 1]] ∧
    (∀ c ∈ [Example.s], Component.isVersion c = false) ∧
    (Example.version 1).isVersion = true ∧ (Example.version 2).isVersion = true ∧
    Example.x.isVersion = false ∧
    Example.version 1 < Example.version 2 ∧
    Example.nestedRegistry.keyAt (find Example.nestedRegistry [Example.s])
      = some [Example.s, Example.x, Example.version 1] ∧
    Example.nestedRegistry.keyAt (find Example.nestedRegistry [Example.s])
      ≠ some [Example.s, Example.version 2] := by
  decide

/-- C1 (amended): in a well-formed registry holding `F ++ [v1]` and `F ++ [v2]` with
`v1 < v2`, for a non-empty `F` with no version component after its first component, `find F`
resolves to a key `K` that is not `F ++ [v1]`: `K` is the greatest registered key that has `F`
as a prefix. When every registered key with prefix `F` is `F` followed by one version
component, `K` is `F ++ [v]` for the greatest registered version `v`; with only `F ++ [v1]`
and `F ++ [v2]` registered under `F` it is `F ++ [v2]`. -/
theorem find_unversioned_highest (reg : Registry φ) (wf : reg.WellFormed) (F : Name)
    (v1 v2 : Component) (hF : F ≠ []) (hnv : ∀ c ∈ F.tail, c.isVersion = false)
    (h12 : v1 < v2) (_h1 : F ++ [v1] ∈ reg.keys) (h2 : F ++ [v2] ∈ reg.keys) :
    ∃ K, reg.keyAt (find reg F) = some K ∧ K ≠ F ++ [v1] ∧ F <+: K ∧
      (∀ K' ∈ reg.keys, F <+: K' → K' ≤ K) ∧
      ((∀ K' ∈ reg.keys, F <+: K' → ∃ v, v.isVersion = true ∧ K' = F ++ [v]) →
        ∃ v, v.isVersion = true ∧ K = F ++ [v] ∧ ∀ v', F ++ [v'] ∈ reg.keys → v' ≤ v) ∧
      ((∀ K' ∈ reg.keys, F <+: K' → K' = F ++ [v1] ∨ K' = F ++ [v2]) → K = F ++ [v2]) := by
  have hp := parseInstanceName_unversioned F hnv
  obtain ⟨K, hK⟩ := find_unversioned_found wf hp hF h2 (List.prefix_append F [v2])
  obtain ⟨_, hpre, hgr⟩ := find_unversioned_keyAt wf hp hK
  have hKmem : K ∈ reg.keys := Registry.mem_keys_iff.mpr ⟨_, hK⟩
  have hlt : F ++ [v1] < F ++ [v2] :=
    (append_lt_append_left_iff F _ _).mpr ((singleton_lt_singleton_iff _ _).mpr h12)
  have hne : K ≠ F ++ [v1] := fun e =>
    absurd (hgr _ h2 (List.prefix_append F [v2])) (not_le.mpr (e ▸ hlt))
  refine ⟨K, hK, hne, hpre, hgr, ?_, ?_⟩
  · intro hall
    obtain ⟨v, hv, rfl⟩ := hall K hKmem hpre
    refine ⟨v, hv, rfl, ?_⟩
    intro v' hv'
    have := hgr _ hv' (List.prefix_append F [v'])
    exact (singleton_le_singleton_iff _ _).mp ((append_le_append_left_iff F _ _).mp this)
  · intro hall
    rcases hall K hKmem hpre with h | h
    · exact absurd h hne
    · exact h

/-- Witness for C1 (amended): with `/s/v1` and `/s/v2` the only registered keys under `/s`,
`find(/s)` resolves to `/s/v2`. -/
theorem find_unversioned_highest_witness :
    Example.pairRegistry.keyAt (find Example.pairRegistry [Example.s])
      = some [Example.s, Example.version 2] := by
  obtain ⟨K, hK, _, _, _, _, h⟩ := find_unversioned_highest Example.pairRegistry (by decide)
    [Example.s] (Example.version 1) (Example.version 2) (by decide) (by decide) (by decide)
    (by decide) (by decide)
  rw [hK, h (by decide)]
  rfl

/-- C2: a registered key `K` of at least two components whose last component is a version
marker resolves to itself, `find K` is the position of `K`; so does `K` followed by
parameter components none of which is a version marker. -/
theorem find_exact_version (reg : Registry φ) (wf : reg.WellFormed) (K P : Name)
    (v : Component) (hK : K ∈ reg.keys) (hlen : 2 ≤ K.length) (hlast : K.getLast? = some v)
    (hv : v.isVersion = true) (hP : ∀ c ∈ P, c.isVersion = false) :
    reg.keyAt (find reg K) = some K ∧ reg.keyAt (find reg (K ++ P)) = some K := by
  have hne : K ≠ [] := by
    intro e; rw [e] at hlen; simp at hlen
  have hKeq : K = K.dropLast ++ [v] := by
    have h1 := List.dropLast_append_getLast hne
    have h2 : K.getLast hne = v := by
      rw [List.getLast?_eq_getLast K hne] at hlast
      exact Option.some.inj hlast
    rw [h2] at h1
    exact h1.symm
  have hF : K.dropLast ≠ [] := by
    intro e
    have : K.dropLast.length = 0 := by rw [e]; rfl
    rw [List.length_dropLast] at this
    omega
  obtain ⟨i, hi⟩ := Registry.mem_keys_iff.mp hK
  have key : ∀ Q : Name, (∀ c ∈ Q, c.isVersion = false) → reg.keyAt (find reg (K ++ Q)) = some K := by
    intro Q hQ
    have hp := parseInstanceName_versioned K.dropLast Q v hF hv hQ
    rw [← hKeq] at hp
    have hfind := find_versioned_of_least wf hp hi (le_refl K) (List.dropLast_prefix K)
      (fun b _ hb => hb)
    rw [hfind]; exact hi
  refine ⟨?_, key P hP⟩
  have := key [] (by simp)
  simpa using this

/-- Witness for C2, on the registry `/s/v1`, `/s/v3`, `/s/v5`, the key `/s/v3` and the
parameters `/p/s`. -/
theorem find_exact_version_witness :
    Example.plainRegistry.keyAt (find Example.plainRegistry [Example.s, Example.version 3])
      = some [Example.s, Example.version 3] ∧
    Example.plainRegistry.keyAt
        (find Example.plainRegistry ([Example.s, Example.version 3] ++ [Example.p, Example.s]))
      = some [Example.s, Example.version 3] :=
  find_exact_version Example.plainRegistry (by decide) [Example.s, Example.version 3]
    [Example.p, Example.s] (Example.version 3) (by decide) (by decide) (by decide) (by decide)
    (by decide)

/-- C3 (as stated, refuted): with `/s/v1`, `/s/v4/p/v1` and `/s/v5` registered, `/s/v3` lies
between the registered versions `/s/v1` and `/s/v5` and is not registered, no version of `/s`
between `v3` and `v5` is registered, yet `find(/s/v3)` resolves to `/s/v4/p/v1`, not to
`/s/v5`; and for the empty family, with `/v1` and `/v5` registered, `find(/v3)` is
not-found. -/
theorem find_between_versions_counterexample :
    (Example.betweenRegistry.WellFormed ∧
      Example.betweenRegistry.keys
        = [[Example.s, Example.version 1],
           [Example.s, Example.version 4, Example.p, Example.version 1],
           [Example.s, Example.version 5]] ∧
      Example.version 1 < Example.version 3 ∧ Example.version 3 < Example.version 5 ∧
      (Example.version 3).isVersion = true ∧
      find Example.betweenRegistry [Example.s, Example.version 3] = 1 ∧
      Example.betweenRegistry.keyAt (find Example.betweenRegistry [Example.s, Example.version 3])
        = some [Example.s, Example.version 4, Example.p, Example.version 1]) ∧
    (Example.rootRegistry.WellFormed ∧
      Example.rootRegistry.keys = [[Example.version 1], [Example.version 5]] ∧
      find Example.rootRegistry ([] ++ [Example.version 3]) = Example.rootRegistry.end) := by
  decide

/-- C3 (amended): in a well-formed registry holding `F ++ [b]` but not `F ++ [r]`, for a
non-empty `F` and a version component `r < b`, `find (F ++ [r])` resolves to the lowest
registered key `K` above `F ++ [r]`; `K` is never smaller than `F ++ [r]`, is at most
`F ++ [b]` and has `F` as a prefix. When every registered key from `F ++ [r]` to `F ++ [b]`
is `F` followed by one version component, `K` is `F ++ [v]` for the next higher registered
version `v`, and it is `F ++ [b]` when no key is registered strictly in between. This holds
whether or not a lower version `F ++ [a]` is registered. -/
theorem find_between_versions (reg : Registry φ) (wf : reg.WellFormed) (F : Name)
    (r b : Component) (hF : F ≠ []) (hr : r.isVersion = true) (hrb : r < b)
    (hb : F ++ [b] ∈ reg.keys) (hnr : F ++ [r] ∉ reg.keys) :
    ∃ K, reg.keyAt (find reg (F ++ [r])) = some K ∧ F ++ [r] < K ∧ K ≤ F ++ [b] ∧ F <+: K ∧
      (∀ K' ∈ reg.keys, F ++ [r] ≤ K' → K ≤ K') ∧
      ((∀ K' ∈ reg.keys, F ++ [r] ≤ K' → K' ≤ F ++ [b] →
          ∃ v, v.isVersion = true ∧ K' = F ++ [v]) →
        ∃ v, v.isVersion = true ∧ K = F ++ [v] ∧ r < v ∧
          ∀ v', F ++ [v'] ∈ reg.keys → r ≤ v' → v ≤ v') ∧
      ((∀ K' ∈ reg.keys, F ++ [r] < K' → ¬ K' < F ++ [b]) → K = F ++ [b]) := by
  have hp : parseInstanceName (F ++ [r]) = ⟨F ++ [r], some r.toVersion, []⟩ := by
    have := parseInstanceName_versioned F [] r hF hr (by simp)
    simpa using this
  have hrb' : F ++ [r] < F ++ [b] :=
    (append_lt_append_left_iff F _ _).mpr ((singleton_lt_singleton_iff _ _).mpr hrb)
  -- the lower bound of `F ++ [r]` is a valid position
  have hlb : reg.lower_bound (F ++ [r]) < reg.end := by
    rcases (Registry.lower_bound_le_end reg (F ++ [r])).lt_or_eq with h | h
    · exact h
    · exfalso
      obtain ⟨j, hj⟩ := Registry.mem_keys_iff.mp hb
      have h1 : j < reg.lower_bound (F ++ [r]) := by
        rw [h]; exact Registry.keyAt_lt_end hj
      exact absurd ((Registry.lt_lower_bound_iff wf _ hj).mp h1) (lt_asymm hrb')
  obtain ⟨K, hK⟩ := Registry.keyAt_isSome hlb
  obtain ⟨hle, hleast⟩ := Registry.keyAt_lower_bound wf _ hK
  have hKb : K ≤ F ++ [b] := hleast _ hb hrb'.le
  have hKmem : K ∈ reg.keys := Registry.mem_keys_iff.mpr ⟨_, hK⟩
  have hpre : F <+: K := isPrefix_of_between F [r] [b] K hle hKb
  have hdrop : (F ++ [r]).dropLast <+: K := by simpa using hpre
  have hfind := find_versioned_of_least wf hp hK hle hdrop hleast
  have hlt : F ++ [r] < K := lt_of_le_of_ne hle (fun e => hnr (e ▸ hKmem))
  refine ⟨K, by rw [hfind]; exact hK, hlt, hKb, hpre, hleast, ?_, ?_⟩
  · intro hall
    obtain ⟨v, hv, rfl⟩ := hall K hKmem hle hKb
    refine ⟨v, hv, rfl, ?_, ?_⟩
    · exact (singleton_lt_singleton_iff _ _).mp ((append_lt_append_left_iff F _ _).mp hlt)
    · intro v' hv' hrv'
      have h1 : F ++ [r] ≤ F ++ [v'] :=
        (append_le_append_left_iff F _ _).mpr ((singleton_le_singleton_iff _ _).mpr hrv')
      exact (singleton_le_singleton_iff _ _).mp
        ((append_le_append_left_iff F _ _).mp (hleast _ hv' h1))
  · intro hnone
    exact le_antisymm hKb (not_lt.mp (hnone K hKmem hlt))

/-- Witness for C3 (amended): with `/s/v1`, `/s/v3` and `/s/v5` registered, the request
`/s/v4` resolves to `/s/v5`. -/
theorem find_between_versions_witness :
    Example.plainRegistry.keyAt (find Example.plainRegistry ([Example.s] ++ [Example.version 4]))
      = some [Example.s, Example.version 5] := by
  obtain ⟨K, hK, _, _, _, _, _, h⟩ := find_between_versions Example.plainRegistry (by decide)
    [Example.s] (Example.version 4) (Example.version 5) (by decide) (by decide) (by decide)
    (by decide) (by decide)
  rw [hK, h (by decide)]
  rfl

/-- C4 (as stated, refuted): with `/s/v1` and the nested-family key `/s/x/v1` registered
(and `/s/v2`, below the request), every registered key that is `/s` followed by one version
component has a version below `v5`, yet `find(/s/v5)` is not not-found: it resolves to
`/s/x/v1`, a key of a different strategy family. -/
theorem find_version_above_all_counterexample :
    Example.nestedRegistry.WellFormed ∧
    Example.nestedRegistry.keys
      = [[Example.s, Example.version 1], [Example.s, Example.version 2],
         [Example.s, Example.x, Example.version 1]] ∧
    Example.version 1 < Example.version 5 ∧ Example.version 2 < Example.version 5 ∧
    (Example.version 5).isVersion = true ∧ Example.x.isVersion = false ∧
    find Example.nestedRegistry [Example.s, Example.version 5] ≠ Example.nestedRegistry.end ∧
    Example.nestedRegistry.keyAt (find Example.nestedRegistry [Example.s, Example.version 5])
      = some [Example.s, Example.x, Example.version 1] := by
  decide

/-- C4 (amended): in a well-formed registry in which every key that has `F` as a prefix is
`F` followed by exactly one component `v` with `v < r`, for a version component `r`,
`find (F ++ [r])` is not-found, the past-the-end iterator. -/
theorem find_version_above_all (reg : Registry φ) (wf : reg.WellFormed) (F : Name)
    (r : Component) (hr : r.isVersion = true)
    (h : ∀ K ∈ reg.keys, F <+: K → ∃ v, K = F ++ [v] ∧ v < r) :
    find reg (F ++ [r]) = reg.end := by
  by_cases hF : F = []
  · subst hF
    have hp := parseInstanceName_unversioned ([] ++ [r]) (by simp)
    apply find_unversioned_not_found wf hp
    intro b hb hpre
    obtain ⟨v, rfl, hv⟩ := h b hb List.nil_prefix
    have : r = v := by simpa using hpre
    exact absurd hv (this ▸ lt_irrefl _)
  · have hp : parseInstanceName (F ++ [r]) = ⟨F ++ [r], some r.toVersion, []⟩ := by
      have := parseInstanceName_versioned F [] r hF hr (by simp)
      simpa using this
    apply find_versioned_not_found wf hp
    intro a ha hle _ hpre
    have hpre' : F <+: a := by simpa using hpre
    obtain ⟨v, rfl, hv⟩ := h a ha hpre'
    have : r ≤ v :=
      (singleton_le_singleton_iff _ _).mp ((append_le_append_left_iff F _ _).mp hle)
    exact absurd hv (not_lt.mpr this)

/-- Witness for C4 (amended): with `/s/v1`, `/s/v3` and `/s/v5` registered, the request
`/s/v7` is not-found. -/
theorem find_version_above_all_witness :
    find Example.plainRegistry ([Example.s] ++ [Example.version 7])
      = Example.plainRegistry.end :=
  find_version_above_all Example.plainRegistry (by decide) [Example.s] (Example.version 7)
    (by decide) (by
      intro K hK _
      have hK' : K = [Example.s, Example.version 1] ∨ K = [Example.s, Example.version 3] ∨
          K = [Example.s, Example.version 5] := by
        simpa [Example.plainRegistry, Registry.keys] using hK
      rcases hK' with rfl | rfl | rfl
      · exact ⟨Example.version 1, rfl, by decide⟩
      · exact ⟨Example.version 3, rfl, by decide⟩
      · exact ⟨Example.version 5, rfl, by decide⟩)

/-! ## Lemmas on `lookupFib` -/

theorem setSelectedDelegation_idem (i : Interest) (n : Name) :
    (i.setSelectedDelegation n).setSelectedDelegation n = i.setSelectedDelegation n := rfl

/-- After the `for_each`, exactly the Interests held by in-records carry the selected
delegation. -/
theorem setSelectedDelegationOnInRecords_apply (store : InterestStore)
    (inRecords : List pit.InRecord) (n : Name) (ref : InterestRef) :
    setSelectedDelegationOnInRecords store inRecords n ref =
      if ∃ inR ∈ inRecords, inR.interest = ref then (store ref).setSelectedDelegation n
      else store ref := by
  unfold setSelectedDelegationOnInRecords
  induction inRecords generalizing store with
  | nil => simp
  | cons inR rest ih =>
    rw [List.foldl_cons, ih]
    by_cases h : inR.interest = ref
    · subst h
      simp [Function.update_same, setSelectedDelegation_idem]
    · have h' : ref ≠ inR.interest := fun e => h e.symm
      simp only [Function.update_noteq h', List.mem_cons, exists_eq_or_imp, h, false_or]

theorem setSelectedDelegationOnInRecords_idem (store : InterestStore)
    (inRecords : List pit.InRecord) (n : Name) :
    setSelectedDelegationOnInRecords (setSelectedDelegationOnInRecords store inRecords n)
      inRecords n = setSelectedDelegationOnInRecords store inRecords n := by
  funext ref
  rw [setSelectedDelegationOnInRecords_apply, setSelectedDelegationOnInRecords_apply]
  split
  · exact setSelectedDelegation_idem _ _
  · rfl

/-- The delegation loop returns at the first delegation whose entry has next hops. -/
theorem chooseDelegation_first (forwarder : Forwarder) (store : InterestStore)
    (pitEntry : pit.Entry) (pre post : List (Nat × Name)) (d : Nat × Name)
    (hpre : ∀ x ∈ pre, (forwarder.fib.findLongestPrefixMatch x.2).hasNextHops = false)
    (hd : (forwarder.fib.findLongestPrefixMatch d.2).hasNextHops = true) :
    lookupFib.chooseDelegation forwarder store pitEntry (pre ++ d :: post) =
      .ok { entry := forwarder.fib.findLongestPrefixMatch d.2, branch := .enterDefaultFreeZone,
            store := setSelectedDelegationOnInRecords store pitEntry.inRecords d.2 } := by
  induction pre with
  | nil => simp [lookupFib.chooseDelegation, hd]
  | cons x pre ih =>
    have hx := hpre x (List.mem_cons_self _ _)
    simp only [List.cons_append, lookupFib.chooseDelegation, hx, Bool.false_eq_true, if_false]
    exact ih (fun y hy => hpre y (List.mem_cons_of_mem _ hy))

/-- A returning delegation loop returned at the first delegation whose entry has next hops. -/
theorem chooseDelegation_ok (forwarder : Forwarder) (store : InterestStore)
    (pitEntry : pit.Entry) (ds : List (Nat × Name)) (r : LookupResult)
    (h : lookupFib.chooseDelegation forwarder store pitEntry ds = .ok r) :
    ∃ pre d post, ds = pre ++ d :: post ∧
      (∀ x ∈ pre, (forwarder.fib.findLongestPrefixMatch x.2).hasNextHops = false) ∧
      (forwarder.fib.findLongestPrefixMatch d.2).hasNextHops = true ∧
      r = { entry := forwarder.fib.findLongestPrefixMatch d.2, branch := .enterDefaultFreeZone,
            store := setSelectedDelegationOnInRecords store pitEntry.inRecords d.2 } := by
  induction ds with
  | nil => simp [lookupFib.chooseDelegation] at h
  | cons x ds ih =>
    by_cases hx : (forwarder.fib.findLongestPrefixMatch x.2).hasNextHops = true
    · simp only [lookupFib.chooseDelegation, hx, if_true, Except.ok.injEq] at h
      exact ⟨[], x, ds, rfl, by simp, hx, h.symm⟩
    · have hx' : (forwarder.fib.findLongestPrefixMatch x.2).hasNextHops = false := by
        simpa using hx
      simp only [lookupFib.chooseDelegation, hx', Bool.false_eq_true, if_false] at h
      obtain ⟨pre, d, post, rfl, h1, h2, h3⟩ := ih h
      refine ⟨x :: pre, d, post, rfl, ?_, h2, h3⟩
      intro y hy
      rcases List.mem_cons.mp hy with rfl | hy
      · exact hx'
      · exact h1 y hy

/-- The branch of `lookupFib` that scans the delegations, spelled out. -/
theorem lookupFib_scan (forwarder : Forwarder) (store : InterestStore) (pitEntry : pit.Entry)
    (link : Link) (first : Nat × Name) (rest : List (Nat × Name))
    (hlink : (store pitEntry.interest).link = some link)
    (hsel : (store pitEntry.interest).selectedDelegation = none)
    (hprod : forwarder.isInProducerRegion link = false)
    (hdel : link.delegations = first :: rest)
    (hdfz : ¬ ((forwarder.fib.findLongestPrefixMatch first.2).getPrefix.length = 0 ∧
        (forwarder.fib.findLongestPrefixMatch first.2).hasNextHops = true)) :
    lookupFib forwarder store pitEntry =
      lookupFib.chooseDelegation forwarder store pitEntry link.delegations := by
  unfold lookupFib
  simp only [hlink, hsel, hprod, hdel, Bool.false_eq_true, if_false]
  have : (!((forwarder.fib.findLongestPrefixMatch first.2).getPrefix.length == 0 &&
      (forwarder.fib.findLongestPrefixMatch first.2).hasNextHops)) = true := by
    by_contra hc
    apply hdfz
    simpa using hc
  simp [this]

/-- A `lookupFib` call that logged `enterDefaultFreeZone` went through the scan. -/
theorem lookupFib_enterDefaultFreeZone (forwarder : Forwarder) (store : InterestStore)
    (pitEntry : pit.Entry) (r : LookupResult)
    (h : lookupFib forwarder store pitEntry = .ok r) (hb : r.branch = .enterDefaultFreeZone) :
    ∃ link first rest, (store pitEntry.interest).link = some link ∧
      (store pitEntry.interest).selectedDelegation = none ∧
      forwarder.isInProducerRegion link = false ∧
      link.delegations = first :: rest ∧
      ¬ ((forwarder.fib.findLongestPrefixMatch first.2).getPrefix.length = 0 ∧
        (forwarder.fib.findLongestPrefixMatch first.2).hasNextHops = true) ∧
      lookupFib.chooseDelegation forwarder store pitEntry link.delegations = .ok r := by
  unfold lookupFib at h
  simp only at h
  split at h
  · simp only [Except.ok.injEq] at h
    rw [← h] at hb; cases hb
  · rename_i link hlink
    split at h
    · cases h
    · rename_i hprod
      split at h
      · simp only [Except.ok.injEq] at h
        rw [← h] at hb; cases hb
      · rename_i hsel
        split at h
        · cases h
        · rename_i first rest hdel
          split at h
          · simp only [Except.ok.injEq] at h
            rw [← h] at hb; cases hb
          · rename_i hdfz
            refine ⟨link, first, rest, hlink, hsel, by simpa using hprod, hdel, ?_, ?_⟩
            · intro hc
              apply hdfz
              simpa using hc
            · exact h

/-! ## Claims on `Strategy::lookupFib` -/

/-- C5 (as stated, refuted): the Interest carries a Link with delegations `/a`, `/b` and no
selected delegation, the node is not in the producer region, and the longest-prefix-match
entry of the first delegation `/a` has a zero-length prefix and no next hops; `lookupFib` does
not return that entry: it scans the delegations, returns the entry of `/b` and sets `/b` as
selected delegation on the in-record Interests. -/
theorem lookupFib_consumer_region_counterexample :
    (Example.linkStore Example.sharedPit.interest).link = some Example.linkAB ∧
    (Example.linkStore Example.sharedPit.interest).selectedDelegation = none ∧
    Example.coreForwarder.isInProducerRegion Example.linkAB = false ∧
    (Example.coreForwarder.fib.findLongestPrefixMatch Example.nameA).getPrefix.length = 0 ∧
    (Example.coreForwarder.fib.findLongestPrefixMatch Example.nameA).hasNextHops = false ∧
    ∃ r, lookupFib Example.coreForwarder Example.linkStore Example.sharedPit = .ok r ∧
      r.entry = Example.entryB ∧
      r.entry ≠ Example.coreForwarder.fib.findLongestPrefixMatch Example.nameA ∧
      r.branch = .enterDefaultFreeZone ∧
      (r.store 0).selectedDelegation = some Example.nameB ∧
      (r.store 1).selectedDelegation = some Example.nameB :=
  ⟨rfl, rfl, rfl, by decide, by decide, _, rfl, by decide, by decide, rfl, by decide, by decide⟩

/-- C5 (amended): for a pending request whose Interest carries a Link and no selected
delegation, outside the producer region, if the longest-prefix-match entry of the first
delegation has a zero-length prefix and at least one next hop, `lookupFib` returns that entry
directly through the consumer-region branch: the other delegations are not scanned and no
Interest object is changed. -/
theorem lookupFib_consumer_region (forwarder : Forwarder) (store : InterestStore)
    (pitEntry : pit.Entry) (link : Link) (first : Nat × Name) (rest : List (Nat × Name))
    (hlink : (store pitEntry.interest).link = some link)
    (hsel : (store pitEntry.interest).selectedDelegation = none)
    (hprod : forwarder.isInProducerRegion link = false)
    (hdel : link.delegations = first :: rest)
    (hzero : (forwarder.fib.findLongestPrefixMatch first.2).getPrefix.length = 0)
    (hnh : (forwarder.fib.findLongestPrefixMatch first.2).hasNextHops = true) :
    lookupFib forwarder store pitEntry =
      .ok { entry := forwarder.fib.findLongestPrefixMatch first.2,
            branch := .inConsumerRegion, store := store } := by
  unfold lookupFib
  simp only [hlink, hsel, hprod, hdel, Bool.false_eq_true, if_false]
  simp [hzero, hnh]

/-- Witness for C5 (amended): with a default route, the first delegation `/a` matches the
entry for `/`, which is returned as it is. -/
theorem lookupFib_consumer_region_witness :
    lookupFib Example.edgeForwarder Example.linkStore Example.sharedPit =
      .ok { entry := Example.edgeForwarder.fib.findLongestPrefixMatch (1, Example.nameA).2,
            branch := .inConsumerRegion, store := Example.linkStore } ∧
    Example.edgeForwarder.fib.findLongestPrefixMatch Example.nameA = Example.entryDefault :=
  ⟨lookupFib_consumer_region Example.edgeForwarder Example.linkStore Example.sharedPit
    Example.linkAB (1, Example.nameA) [(2, Example.nameB)] rfl rfl rfl rfl (by decide)
    (by decide), by decide⟩

/-- C6: for a pending request whose Interest carries a Link and no selected delegation,
outside the producer region and not classified as consumer region by `lookupFib` (the entry
of the first delegation does not have both a zero-length prefix and next hops), if `d` is the
first delegation in priority order whose longest-prefix-match entry has a next hop, then
`lookupFib` returns that entry through the default-free-zone branch; afterwards the Interest
held by every in-record is what it was with `d`'s name as selected delegation, and every
other Interest object is unchanged. -/
theorem lookupFib_default_free_zone (forwarder : Forwarder) (store : InterestStore)
    (pitEntry : pit.Entry) (link : Link) (first : Nat × Name) (pre post : List (Nat × Name))
    (d : Nat × Name)
    (hlink : (store pitEntry.interest).link = some link)
    (hsel : (store pitEntry.interest).selectedDelegation = none)
    (hprod : forwarder.isInProducerRegion link = false)
    (hdel : link.delegations = pre ++ d :: post)
    (hfirst : link.delegations.head? = some first)
    (hdfz : ¬ ((forwarder.fib.findLongestPrefixMatch first.2).getPrefix.length = 0 ∧
        (forwarder.fib.findLongestPrefixMatch first.2).hasNextHops = true))
    (hpre : ∀ x ∈ pre, (forwarder.fib.findLongestPrefixMatch x.2).hasNextHops = false)
    (hd : (forwarder.fib.findLongestPrefixMatch d.2).hasNextHops = true) :
    ∃ r, lookupFib forwarder store pitEntry = .ok r ∧
      r.entry = forwarder.fib.findLongestPrefixMatch d.2 ∧
      r.branch = .enterDefaultFreeZone ∧
      (∀ inR ∈ pitEntry.inRecords,
        r.store inR.interest = { store inR.interest with selectedDelegation := some d.2 }) ∧
      (∀ ref, (∀ inR ∈ pitEntry.inRecords, inR.interest ≠ ref) → r.store ref = store ref) := by
  obtain ⟨rest, hrest⟩ : ∃ rest, link.delegations = first :: rest := by
    cases hl : link.delegations with
    | nil => rw [hl] at hfirst; cases hfirst
    | cons a t =>
      rw [hl] at hfirst
      simp only [List.head?_cons, Option.some.injEq] at hfirst
      exact ⟨t, by rw [hfirst]⟩
  have h1 := lookupFib_scan forwarder store pitEntry link first rest hlink hsel hprod hrest hdfz
  rw [hdel, chooseDelegation_first forwarder store pitEntry pre post d hpre hd] at h1
  refine ⟨_, h1, rfl, rfl, ?_, ?_⟩
  · intro inR hin
    show setSelectedDelegationOnInRecords store pitEntry.inRecords d.2 inR.interest = _
    rw [setSelectedDelegationOnInRecords_apply, if_pos ⟨inR, hin, rfl⟩]
    rfl
  · intro ref href
    show setSelectedDelegationOnInRecords store pitEntry.inRecords d.2 ref = _
    rw [setSelectedDelegationOnInRecords_apply, if_neg]
    rintro ⟨inR, hin, e⟩
    exact href inR hin e

/-- Witness for C6: without a default route, `/a` has no next hop and `/b` is selected. -/
theorem lookupFib_default_free_zone_witness :
    ∃ r, lookupFib Example.coreForwarder Example.linkStore Example.sharedPit = .ok r ∧
      r.entry = Example.coreForwarder.fib.findLongestPrefixMatch (2, Example.nameB).2 ∧
      r.branch = .enterDefaultFreeZone ∧
      (∀ inR ∈ Example.sharedPit.inRecords,
        r.store inR.interest =
          { Example.linkStore inR.interest with
            selectedDelegation := some (2, Example.nameB).2 }) ∧
      (∀ ref, (∀ inR ∈ Example.sharedPit.inRecords, inR.interest ≠ ref) →
        r.store ref = Example.linkStore ref) :=
  lookupFib_default_free_zone Example.coreForwarder Example.linkStore Example.sharedPit
    Example.linkAB (1, Example.nameA) [(1, Example.nameA)] [] (2, Example.nameB) rfl rfl rfl rfl
    rfl (by decide) (by decide) (by decide)

/-- C7 (as stated, refuted): on a PIT entry without in-records, and on one whose in-record
holds another Interest object than the entry, the first `lookupFib` call takes the
default-free-zone branch, and the second call on the resulting state takes that branch again
(it scans the delegations anew) instead of the selected-delegation branch. -/
theorem lookupFib_repeat_counterexample :
    (∃ r1 r2, lookupFib Example.coreForwarder Example.linkStore Example.emptyPit = .ok r1 ∧
      r1.branch = .enterDefaultFreeZone ∧
      lookupFib Example.coreForwarder r1.store Example.emptyPit = .ok r2 ∧
      r2.entry = r1.entry ∧
      r2.branch = .enterDefaultFreeZone ∧ r2.branch ≠ .hasSelectedDelegation) ∧
    (∃ r1 r2, lookupFib Example.coreForwarder Example.linkStore Example.unsharedPit = .ok r1 ∧
      r1.branch = .enterDefaultFreeZone ∧
      lookupFib Example.coreForwarder r1.store Example.unsharedPit = .ok r2 ∧
      r2.entry = r1.entry ∧
      r2.branch = .enterDefaultFreeZone ∧ r2.branch ≠ .hasSelectedDelegation) :=
  ⟨⟨_, _, rfl, rfl, rfl, rfl, rfl, by decide⟩, ⟨_, _, rfl, rfl, rfl, rfl, rfl, by decide⟩⟩

/-- C7 (amended): when a first `lookupFib` call took the default-free-zone selection branch
and returned entry `E`, a second call on the resulting state against the same forwarding table
returns the same entry `E` and changes nothing further. It does so through the
selected-delegation branch when the Interest object of the PIT entry is held by one of its
in-records, and by scanning the delegations again when no in-record holds it. -/
theorem lookupFib_repeat (forwarder : Forwarder) (store : InterestStore) (pitEntry : pit.Entry)
    (r1 : LookupResult) (h1 : lookupFib forwarder store pitEntry = .ok r1)
    (hb : r1.branch = .enterDefaultFreeZone) :
    ∃ r2, lookupFib forwarder r1.store pitEntry = .ok r2 ∧ r2.entry = r1.entry ∧
      r2.store = r1.store ∧
      ((∃ inR ∈ pitEntry.inRecords, inR.interest = pitEntry.interest) →
        r2.branch = .hasSelectedDelegation) ∧
      ((∀ inR ∈ pitEntry.inRecords, inR.interest ≠ pitEntry.interest) →
        r2.branch = .enterDefaultFreeZone) := by
  obtain ⟨link, first, rest, hlink, hsel, hprod, hdel, hdfz, hch⟩ :=
    lookupFib_enterDefaultFreeZone forwarder store pitEntry r1 h1 hb
  obtain ⟨pre, d, post, hds, hpre, hd, rfl⟩ := chooseDelegation_ok forwarder store pitEntry _ r1 hch
  by_cases hshared : ∃ inR ∈ pitEntry.inRecords, inR.interest = pitEntry.interest
  · have hst : setSelectedDelegationOnInRecords store pitEntry.inRecords d.2 pitEntry.interest
        = (store pitEntry.interest).setSelectedDelegation d.2 := by
      rw [setSelectedDelegationOnInRecords_apply, if_pos hshared]
    refine ⟨{ entry := forwarder.fib.findLongestPrefixMatch d.2, branch := .hasSelectedDelegation,
              store := setSelectedDelegationOnInRecords store pitEntry.inRecords d.2 },
      ?_, rfl, rfl, fun _ => rfl, ?_⟩
    · unfold lookupFib
      simp only [hst, Interest.setSelectedDelegation, hlink, hprod, Bool.false_eq_true, if_false]
    · intro hno
      obtain ⟨inR, hin, e⟩ := hshared
      exact absurd e (hno inR hin)
  · have hno : ∀ inR ∈ pitEntry.inRecords, inR.interest ≠ pitEntry.interest := by
      intro inR hin e
      exact hshared ⟨inR, hin, e⟩
    have hst : setSelectedDelegationOnInRecords store pitEntry.inRecords d.2 pitEntry.interest
        = store pitEntry.interest := by
      rw [setSelectedDelegationOnInRecords_apply, if_neg hshared]
    have h2 := lookupFib_scan forwarder
      (setSelectedDelegationOnInRecords store pitEntry.inRecords d.2) pitEntry link first rest
      (by rw [hst]; exact hlink) (by rw [hst]; exact hsel) hprod hdel hdfz
    rw [hds, chooseDelegation_first forwarder _ pitEntry pre post d hpre hd,
      setSelectedDelegationOnInRecords_idem] at h2
    exact ⟨_, h2, rfl, rfl, fun h => absurd h hshared, fun _ => rfl⟩

/-- Witness for C7 (amended): the first in-record holds the Interest object of the entry, so
the repeated lookup returns the entry of `/b` through the selected-delegation branch. -/
theorem lookupFib_repeat_witness :
    ∃ r2, lookupFib Example.coreForwarder
        (setSelectedDelegationOnInRecords Example.linkStore Example.sharedPit.inRecords
          Example.nameB) Example.sharedPit = .ok r2 ∧
      r2.entry = Example.entryB ∧ r2.branch = .hasSelectedDelegation := by
  obtain ⟨r2, h1, h2, _, h3, _⟩ := lookupFib_repeat Example.coreForwarder Example.linkStore
    Example.sharedPit
    { entry := Example.entryB, branch := .enterDefaultFreeZone,
      store := setSelectedDelegationOnInRecords Example.linkStore Example.sharedPit.inRecords
        Example.nameB } rfl rfl
  exact ⟨r2, h1, h2, h3 (by decide)⟩

/-- C8: for a pending request whose Interest carries a Link, outside the producer region,
and already has a selected delegation `D`, `lookupFib` returns the longest-prefix-match
entry for `D` through the selected-delegation branch, whatever the delegation list of the
Link and the next hops of the entries are, and changes no Interest object. -/
theorem lookupFib_selected_delegation (forwarder : Forwarder) (store : InterestStore)
    (pitEntry : pit.Entry) (link : Link) (D : Name)
    (hlink : (store pitEntry.interest).link = some link)
    (hprod : forwarder.isInProducerRegion link = false)
    (hsel : (store pitEntry.interest).selectedDelegation = some D) :
    lookupFib forwarder store pitEntry =
      .ok { entry := forwarder.fib.findLongestPrefixMatch D, branch := .hasSelectedDelegation,
            store := store } := by
  unfold lookupFib
  simp only [hlink, hprod, hsel, Bool.false_eq_true, if_false]

/-- Witness for C8: with `/b` selected, the entry of `/b` is returned although the first
delegation is `/a`. -/
theorem lookupFib_selected_delegation_witness :
    lookupFib Example.edgeForwarder Example.selectedStore Example.sharedPit =
      .ok { entry := Example.edgeForwarder.fib.findLongestPrefixMatch Example.nameB,
            branch := .hasSelectedDelegation, store := Example.selectedStore } ∧
    Example.edgeForwarder.fib.findLongestPrefixMatch Example.nameB = Example.entryB :=
  ⟨lookupFib_selected_delegation Example.edgeForwarder Example.selectedStore Example.sharedPit
    Example.linkAB Example.nameB rfl rfl rfl, by decide⟩

/-- C9: for a pending request whose Interest carries no Link, `lookupFib` returns normally
(no assertion fails) with the longest-prefix-match entry of the forwarding table for the
Interest name, through the no-Link branch, and changes no Interest object. -/
theorem lookupFib_no_link (forwarder : Forwarder) (store : InterestStore)
    (pitEntry : pit.Entry) (hlink : (store pitEntry.interest).link = none) :
    lookupFib forwarder store pitEntry =
      .ok { entry := forwarder.fib.findLongestPrefixMatch (store pitEntry.interest).name,
            branch := .noLinkObject, store := store } := by
  unfold lookupFib
  simp only [hlink]

/-- Witness for C9: with entries `/`, `/a` and `/a/b`, the request `/a/b/c` gets the `/a/b`
entry. -/
theorem lookupFib_no_link_witness :
    lookupFib Example.treeForwarder Example.plainStore Example.sharedPit =
      .ok { entry := Example.treeForwarder.fib.findLongestPrefixMatch
              (Example.plainStore Example.sharedPit.interest).name,
            branch := .noLinkObject, store := Example.plainStore } ∧
    (Example.plainStore Example.sharedPit.interest).name = Example.nameABC ∧
    Example.treeForwarder.fib.findLongestPrefixMatch Example.nameABC
      = { getPrefix := Example.nameAB, getNextHops := [(3, 0)] } :=
  ⟨lookupFib_no_link Example.treeForwarder Example.plainStore Example.sharedPit rfl, rfl,
    by decide⟩

/-! ## Claim on `Strategy::sendNacks` -/

theorem insert_faces_spec (inRecords : List pit.InRecord) (s : List FaceId) (hs : s.Nodup) :
    (inRecords.foldl (fun s inR => s.insert inR.face) s).Nodup ∧
      ∀ f, f ∈ inRecords.foldl (fun s inR => s.insert inR.face) s ↔
        f ∈ s ∨ ∃ inR ∈ inRecords, inR.face = f := by
  induction inRecords generalizing s with
  | nil => simp [hs]
  | cons inR rest ih =>
    obtain ⟨h1, h2⟩ := ih (s.insert inR.face) (hs.insert)
    refine ⟨h1, fun f => ?_⟩
    rw [List.foldl_cons, h2 f, List.mem_insert_iff]
    constructor
    · rintro ((rfl | h) | ⟨r, hr, rfl⟩)
      · exact Or.inr ⟨inR, List.mem_cons_self _ _, rfl⟩
      · exact Or.inl h
      · exact Or.inr ⟨r, List.mem_cons_of_mem _ hr, rfl⟩
    · rintro (h | ⟨r, hr, rfl⟩)
      · exact Or.inl (Or.inr h)
      · rcases List.mem_cons.mp hr with rfl | hr
        · exact Or.inl (Or.inl rfl)
        · exact Or.inr ⟨r, hr, rfl⟩

theorem erase_faces_spec (exceptFaces : List FaceId) (s : List FaceId) (hs : s.Nodup) :
    (exceptFaces.foldl (fun s exceptFace => s.erase exceptFace) s).Nodup ∧
      ∀ f, f ∈ exceptFaces.foldl (fun s exceptFace => s.erase exceptFace) s ↔
        f ∈ s ∧ f ∉ exceptFaces := by
  induction exceptFaces generalizing s with
  | nil => simp [hs]
  | cons e rest ih =>
    obtain ⟨h1, h2⟩ := ih (s.erase e) (hs.erase e)
    refine ⟨h1, fun f => ?_⟩
    rw [List.foldl_cons, h2 f, hs.mem_erase_iff, List.mem_cons, not_or]
    tauto

theorem downstreams_spec (inRecords : List pit.InRecord) (exceptFaces : List FaceId) :
    (sendNacks.downstreams inRecords exceptFaces).Nodup ∧
      ∀ f, f ∈ sendNacks.downstreams inRecords exceptFaces ↔
        (∃ inR ∈ inRecords, inR.face = f) ∧ f ∉ exceptFaces := by
  obtain ⟨h1, h2⟩ := insert_faces_spec inRecords [] List.nodup_nil
  obtain ⟨h3, h4⟩ := erase_faces_spec exceptFaces _ h1
  refine ⟨h3, fun f => ?_⟩
  unfold sendNacks.downstreams
  rw [h4 f, h2 f]
  simp

theorem sendNack_fold_nacksSent (faces : List FaceId) (w : NackWorld) (header : NackHeader) :
    (faces.foldl (fun w downstream => sendNack w downstream header) w).nacksSent =
      w.nacksSent ++ faces.map (fun f => (f, header)) := by
  induction faces generalizing w with
  | nil => simp
  | cons f rest ih =>
    rw [List.foldl_cons, ih]
    simp [sendNack]

/-- C10: `sendNacks` hands to `sendNack`, with the given header, exactly the faces of the
in-records of the pending request at call time that are not excluded, each face once: the
multiset of faces of the calls is the set of in-record faces minus the excluded faces,
however many in-records name one face and whatever other faces are excluded. -/
theorem sendNacks_faces (w : NackWorld) (header : NackHeader) (exceptFaces : List FaceId) :
    ∃ calls : List (FaceId × NackHeader),
      (sendNacks w header exceptFaces).nacksSent = w.nacksSent ++ calls ∧
      (∀ c ∈ calls, c.2 = header) ∧
      (calls.map Prod.fst).Nodup ∧
      (∀ f, f ∈ calls.map Prod.fst ↔ (∃ inR ∈ w.inRecords, inR.face = f) ∧ f ∉ exceptFaces) ∧
      ((calls.map Prod.fst : List FaceId) : Multiset FaceId) =
        ((w.inRecords.map (fun inR => inR.face)).toFinset \ exceptFaces.toFinset).val := by
  obtain ⟨h1, h2⟩ := downstreams_spec w.inRecords exceptFaces
  have hmap : ((sendNacks.downstreams w.inRecords exceptFaces).map
      (fun f => (f, header))).map Prod.fst = sendNacks.downstreams w.inRecords exceptFaces := by
    rw [List.map_map]
    exact List.map_id'' (fun _ => rfl) _
  refine ⟨(sendNacks.downstreams w.inRecords exceptFaces).map (fun f => (f, header)),
    sendNack_fold_nacksSent _ w header, ?_, ?_, ?_, ?_⟩
  · intro c hc
    obtain ⟨f, _, rfl⟩ := List.mem_map.mp hc
    rfl
  · rw [hmap]; exact h1
  · rw [hmap]; exact h2
  · rw [hmap]
    have : (⟨(sendNacks.downstreams w.inRecords exceptFaces : Multiset FaceId), h1⟩ : Finset FaceId)
        = (w.inRecords.map (fun inR => inR.face)).toFinset \ exceptFaces.toFinset := by
      ext f
      simp only [Finset.mem_mk, Multiset.mem_coe, h2 f, Finset.mem_sdiff, List.mem_toFinset,
        List.mem_map]
    exact congrArg Finset.val this

/-- The example of C10: in-records on the faces 1, 2, 3, with two in-records on face 1, and
the exclusion of face 2 and of face 8, which is no downstream: Nacks go to 3 and 1, once
each, and `sendNack` has deleted their in-records. -/
theorem sendNacks_example :
    sendNacks ⟨[⟨1, 0⟩, ⟨2, 0⟩, ⟨1, 3⟩, ⟨3, 0⟩], []⟩ ⟨9⟩ [2, 8] =
      ⟨[⟨2, 0⟩], [(3, ⟨9⟩), (1, ⟨9⟩)]⟩ := by
  decide

/-! ## Claims on `parseInstanceName` and `makeInstanceName` -/

/-- The loop of `parseInstanceName` either finds no version component at the indices
`1 .. i`, or splits at the last one among them. -/
theorem parseInstanceName.loop_cases (input : Name) (i : Nat) :
    (parseInstanceName.loop input i
        = { strategyName := input, version := none, parameters := [] } ∧
      ∀ j c, 1 ≤ j → j ≤ i → input[j]? = some c → c.isVersion = false) ∨
    (∃ j c, 1 ≤ j ∧ j ≤ i ∧ input[j]? = some c ∧ c.isVersion = true ∧
      (∀ j' c', j < j' → j' ≤ i → input[j']? = some c' → c'.isVersion = false) ∧
      parseInstanceName.loop input i =
        { strategyName := input.take (j + 1), version := some c.toVersion,
          parameters := input.drop (j + 1) }) := by
  by_cases h : ∀ j c, 1 ≤ j → j ≤ i → input[j]? = some c → c.isVersion = false
  · exact Or.inl ⟨parseInstanceName.loop_none input i h, h⟩
  · right
    induction i with
    | zero =>
      exfalso; apply h
      intro j c h1 h2; omega
    | succ i ih =>
      cases hc : input[i + 1]? with
      | none =>
        have h' : ¬ ∀ j c, 1 ≤ j → j ≤ i → input[j]? = some c → c.isVersion = false := by
          intro hall
          apply h
          intro j c h1 h2 h3
          rcases Nat.lt_or_eq_of_le h2 with h4 | h4
          · exact hall j c h1 (by omega) h3
          · subst h4; rw [hc] at h3; cases h3
        obtain ⟨j, c, h1, h2, h3, h4, h5, h6⟩ := ih h'
        refine ⟨j, c, h1, by omega, h3, h4, ?_, ?_⟩
        · intro j' c' hj hj' hc'
          rcases Nat.lt_or_eq_of_le hj' with h7 | h7
          · exact h5 j' c' hj (by omega) hc'
          · subst h7; rw [hc] at hc'; cases hc'
        · exact parseInstanceName.loop_found input (i + 1) j c h1 (by omega) h3 h4 (by
            intro j' c' hj hj' hc'
            rcases Nat.lt_or_eq_of_le hj' with h7 | h7
            · exact h5 j' c' hj (by omega) hc'
            · subst h7; rw [hc] at hc'; cases hc')
      | some c0 =>
        by_cases hv : c0.isVersion = true
        · refine ⟨i + 1, c0, by omega, le_refl _, hc, hv, ?_, ?_⟩
          · intro j' c' hj hj'; omega
          · exact parseInstanceName.loop_found input (i + 1) (i + 1) c0 (by omega) (le_refl _)
              hc hv (by intro j' c' hj hj'; omega)
        · have hv' : c0.isVersion = false := by simpa using hv
          have h' : ¬ ∀ j c, 1 ≤ j → j ≤ i → input[j]? = some c → c.isVersion = false := by
            intro hall
            apply h
            intro j c h1 h2 h3
            rcases Nat.lt_or_eq_of_le h2 with h4 | h4
            · exact hall j c h1 (by omega) h3
            · subst h4; rw [hc] at h3; cases h3; exact hv'
          obtain ⟨j, c, h1, h2, h3, h4, h5, h6⟩ := ih h'
          have h5' : ∀ j' c', j < j' → j' ≤ i + 1 → input[j']? = some c' →
              c'.isVersion = false := by
            intro j' c' hj hj' hc'
            rcases Nat.lt_or_eq_of_le hj' with h7 | h7
            · exact h5 j' c' hj (by omega) hc'
            · subst h7; rw [hc] at hc'; cases hc'; exact hv'
          exact ⟨j, c, h1, by omega, h3, h4, h5',
            parseInstanceName.loop_found input (i + 1) j c h1 (by omega) h3 h4 h5'⟩

/-- A component of the tail of a name stands at an index from 1 on, below the length. -/
theorem mem_tail_iff_getElem? (input : Name) (c : Component) :
    c ∈ input.tail ↔ ∃ j, 1 ≤ j ∧ j ≤ input.length - 1 ∧ input[j]? = some c := by
  cases input with
  | nil => simp
  | cons a t =>
    simp only [List.tail_cons, List.length_cons, Nat.add_sub_cancel]
    constructor
    · intro h
      obtain ⟨j, hj⟩ := List.mem_iff_getElem?.mp h
      have hlt := (List.getElem?_eq_some_iff.mp hj).1
      exact ⟨j + 1, by omega, by omega, by simpa using hj⟩
    · rintro ⟨j, h1, _, h3⟩
      obtain ⟨j', rfl⟩ : ∃ j', j = j' + 1 := ⟨j - 1, by omega⟩
      simp only [List.getElem?_cons_succ] at h3
      exact List.getElem?_mem h3

/-- What `parseInstanceName` returns, in terms of the version components of the input. -/
theorem parseInstanceName_spec (input : Name) :
    (parseInstanceName input).strategyName ++ (parseInstanceName input).parameters = input ∧
    ((parseInstanceName input).version.isSome = true ↔
      ∃ c ∈ input.tail, c.isVersion = true) ∧
    (∀ n, (parseInstanceName input).version = some n →
      (∃ c, (parseInstanceName input).strategyName.getLast? = some c ∧
        c.isVersion = true ∧ c.toVersion = n) ∧
      ∀ c ∈ (parseInstanceName input).parameters, c.isVersion = false) ∧
    ((parseInstanceName input).version = none →
      (parseInstanceName input).parameters = [] ∧
      (parseInstanceName input).strategyName = input) := by
  unfold parseInstanceName
  rcases parseInstanceName.loop_cases input (input.length - 1) with
    ⟨hres, hall⟩ | ⟨j, c, h1, h2, h3, h4, h5, hres⟩
  · rw [hres]
    refine ⟨by simp, ?_, ?_, fun _ => ⟨rfl, rfl⟩⟩
    · simp only [Option.isSome_none, Bool.false_eq_true, false_iff, not_exists, not_and]
      intro c hc
      obtain ⟨j, hj1, hj2, hj3⟩ := (mem_tail_iff_getElem? input c).mp hc
      simp [hall j c hj1 hj2 hj3]
    · intro n hn; cases hn
  · rw [hres]
    refine ⟨List.take_append_drop _ _, ?_, ?_, fun h => by cases h⟩
    · simp only [Option.isSome_some, true_iff]
      exact ⟨c, (mem_tail_iff_getElem? input c).mpr ⟨j, h1, h2, h3⟩, h4⟩
    · intro n hn
      simp only [Option.some.injEq] at hn
      refine ⟨⟨c, ?_, h4, hn⟩, ?_⟩
      · simp only [List.take_succ, h3, Option.toList_some, List.getLast?_concat]
      · intro c' hc'
        simp only at hc'
        obtain ⟨k, hk⟩ := List.mem_iff_getElem?.mp hc'
        rw [List.getElem?_drop] at hk
        have hlt := (List.getElem?_eq_some_iff.mp hk).1
        exact h5 (j + 1 + k) c' (by omega) (by omega) hk

/-- C19: `parseInstanceName` splits without loss at the last version component: the
strategy name followed by the parameters is the input; a version is reported exactly when a
component at an index from 1 on is a version marker, and then the last component of the
strategy name is a version marker carrying the reported version and the parameters hold no
version component; without version the parameters are empty and the strategy name is the
input. -/
theorem parseInstanceName_split (input : Name) :
    (parseInstanceName input).strategyName ++ (parseInstanceName input).parameters = input ∧
    ((parseInstanceName input).version.isSome = true ↔
      ∃ c ∈ input.tail, c.isVersion = true) ∧
    (∀ n, (parseInstanceName input).version = some n →
      (∃ c, (parseInstanceName input).strategyName.getLast? = some c ∧
        c.isVersion = true ∧ c.toVersion = n) ∧
      ∀ c ∈ (parseInstanceName input).parameters, c.isVersion = false) ∧
    ((parseInstanceName input).version = none →
      (parseInstanceName input).parameters = [] ∧
      (parseInstanceName input).strategyName = input) :=
  parseInstanceName_spec input

/-- C11 (as stated, refuted): for the prefix `/s`, the version component `v1` and the suffix
`/v2`, `parseInstanceName(/s/v1/v2)` splits at `v2`, not at `v1`; and for the empty prefix,
`v1` and the suffix `/p`, `parseInstanceName(/v1/p)` reports no version at all. -/
theorem parseInstanceName_left_inverse_counterexample :
    (Example.version 1).isVersion = true ∧ (Example.version 1).toVersion = 1 ∧
    parseInstanceName ([Example.s] ++ [Example.version 1] ++ [Example.version 2]) =
      { strategyName := [Example.s, Example.version 1, Example.version 2], version := some 2,
        parameters := [] } ∧
    parseInstanceName ([Example.s] ++ [Example.version 1] ++ [Example.version 2]) ≠
      { strategyName := [Example.s] ++ [Example.version 1], version := some 1,
        parameters := [Example.version 2] } ∧
    parseInstanceName ([] ++ [Example.version 1] ++ [Example.p]) =
      { strategyName := [Example.version 1, Example.p], version := none, parameters := [] } ∧
    parseInstanceName ([] ++ [Example.version 1] ++ [Example.p]) ≠
      { strategyName := [] ++ [Example.version 1], version := some 1,
        parameters := [Example.p] } := by
  decide

/-- C11 (amended): for a non-empty name prefix `P` and a version component `V`,
`parseInstanceName (P ++ [V] ++ S)` returns the strategy name `P ++ [V]`, the version carried
by `V` and the parameters `S` exactly when the suffix `S` holds no version component. -/
theorem parseInstanceName_left_inverse (P S : Name) (V : Component) (hP : P ≠ [])
    (hV : V.isVersion = true) :
    parseInstanceName (P ++ [V] ++ S) =
        { strategyName := P ++ [V], version := some V.toVersion, parameters := S } ↔
      ∀ c ∈ S, c.isVersion = false := by
  constructor
  · intro h
    have h3 := (parseInstanceName_spec (P ++ [V] ++ S)).2.2.1 V.toVersion (by rw [h])
    rw [h] at h3
    exact h3.2
  · exact parseInstanceName_versioned P S V hP hV

/-- Witness for C11 (amended): `/s/v3/p/s` parses into `/s/v3`, version 3 and `/p/s`. -/
theorem parseInstanceName_left_inverse_witness :
    parseInstanceName ([Example.s] ++ [Example.version 3] ++ [Example.p, Example.s]) =
      { strategyName := [Example.s] ++ [Example.version 3],
        version := some (Example.version 3).toVersion,
        parameters := [Example.p, Example.s] } ∧
    (Example.version 3).toVersion = 3 :=
  ⟨(parseInstanceName_left_inverse [Example.s] [Example.p, Example.s] (Example.version 3)
    (by decide) (by decide)).mpr (by decide), by decide⟩

theorem any_reverse_isVersion (input : Name) :
    input.reverse.any (fun comp => comp.isVersion) = input.any (fun comp => comp.isVersion) := by
  rw [Bool.eq_iff_iff]
  simp [List.any_eq_true]

/-- With a canonical name ending in the version component `v`, `makeInstanceName` returns
the input when it holds a version component and the input with `v` appended otherwise. -/
theorem makeInstanceName_eq (input C : Name) (v : Component)
    (hC : C.getLast? = some v) (hv : v.isVersion = true) :
    makeInstanceName input C =
      some (if input.any (fun comp => comp.isVersion) then input else input ++ [v]) := by
  unfold makeInstanceName
  simp only [hC, hv, Bool.not_true, Bool.false_eq_true, if_false, any_reverse_isVersion]

/-- C12: for a canonical name `C` whose last component `v` is a version marker,
`makeInstanceName` returns normally and is idempotent,
`makeInstanceName (makeInstanceName input C) C = makeInstanceName input C`; the result is the
input unchanged when the input holds a version component at any position, and the input with
`v` appended otherwise. -/
theorem makeInstanceName_idempotent (input C : Name) (v : Component)
    (hC : C.getLast? = some v) (hv : v.isVersion = true) :
    ∃ r, makeInstanceName input C = some r ∧ makeInstanceName r C = some r ∧
      ((∃ c ∈ input, c.isVersion = true) → r = input) ∧
      ((∀ c ∈ input, c.isVersion = false) → r = input ++ [v]) := by
  by_cases h : input.any (fun comp => comp.isVersion) = true
  · refine ⟨input, ?_, ?_, fun _ => rfl, ?_⟩
    · rw [makeInstanceName_eq input C v hC hv, if_pos h]
    · rw [makeInstanceName_eq input C v hC hv, if_pos h]
    · intro hall
      obtain ⟨c, hc, hcv⟩ := List.any_eq_true.mp h
      rw [hall c hc] at hcv; cases hcv
  · have h2 : (input ++ [v]).any (fun comp => comp.isVersion) = true := by
      simp [hv]
    refine ⟨input ++ [v], ?_, ?_, ?_, fun _ => rfl⟩
    · rw [makeInstanceName_eq input C v hC hv, if_neg h]
    · rw [makeInstanceName_eq (input ++ [v]) C v hC hv, if_pos h2]
    · rintro ⟨c, hc, hcv⟩
      exact absurd (List.any_eq_true.mpr ⟨c, hc, hcv⟩) h

/-- Witness for C12: `/s/p` with the canonical name `/s/v3` becomes `/s/p/v3`, and stays so
when made again. -/
theorem makeInstanceName_idempotent_witness :
    makeInstanceName [Example.s, Example.p] [Example.s, Example.version 3]
      = some [Example.s, Example.p, Example.version 3] ∧
    makeInstanceName [Example.s, Example.p, Example.version 3] [Example.s, Example.version 3]
      = some [Example.s, Example.p, Example.version 3] := by
  obtain ⟨r, h1, h2, _, h4⟩ := makeInstanceName_idempotent [Example.s, Example.p]
    [Example.s, Example.version 3] (Example.version 3) (by decide) (by decide)
  have hr := h4 (by decide)
  rw [hr] at h1 h2
  exact ⟨h1, h2⟩

/-- C20: for a canonical name `C` whose last component `v` is a version marker and a
non-empty input whose first component is no version marker, `makeInstanceName` returns a name
for which `parseInstanceName` reports a version; when the input holds no version component
at all, the parse gives the strategy name `input ++ [v]`, the version carried by `v` and
empty parameters. -/
theorem parseInstanceName_makeInstanceName (input C : Name) (v c0 : Component)
    (hC : C.getLast? = some v) (hv : v.isVersion = true)
    (hhead : input.head? = some c0) (hc0 : c0.isVersion = false) :
    ∃ r, makeInstanceName input C = some r ∧
      (parseInstanceName r).version.isSome = true ∧
      ((∀ c ∈ input, c.isVersion = false) →
        parseInstanceName r =
          { strategyName := input ++ [v], version := some v.toVersion, parameters := [] }) := by
  have hmake := makeInstanceName_eq input C v hC hv
  have hne : input ≠ [] := by
    intro e; rw [e] at hhead; cases hhead
  have hparse : (∀ c ∈ input, c.isVersion = false) →
      parseInstanceName (input ++ [v]) =
        { strategyName := input ++ [v], version := some v.toVersion, parameters := [] } := by
    intro _
    have := parseInstanceName_versioned input [] v hne hv (by simp)
    simpa using this
  by_cases hex : input.any (fun comp => comp.isVersion) = true
  · rw [if_pos hex] at hmake
    refine ⟨input, hmake, ?_, ?_⟩
    · obtain ⟨c, hc, hcv⟩ := List.any_eq_true.mp hex
      apply (parseInstanceName_spec input).2.1.mpr
      cases input with
      | nil => exact absurd rfl hne
      | cons a t =>
        simp only [List.head?_cons, Option.some.injEq] at hhead
        subst hhead
        rcases List.mem_cons.mp hc with rfl | hct
        · rw [hc0] at hcv; cases hcv
        · exact ⟨c, hct, hcv⟩
    · intro hall
      obtain ⟨c, hc, hcv⟩ := List.any_eq_true.mp hex
      rw [hall c hc] at hcv; cases hcv
  · rw [if_neg hex] at hmake
    have hall : ∀ c ∈ input, c.isVersion = false := by
      intro c hc
      by_contra hcv
      exact hex (List.any_eq_true.mpr ⟨c, hc, by simpa using hcv⟩)
    refine ⟨input ++ [v], hmake, ?_, fun _ => hparse hall⟩
    rw [hparse hall]
    rfl

/-- Witness for C20: `/s/p` made an instance name of `/s/v3` parses into `/s/p/v3`, version
3 and no parameters. -/
theorem parseInstanceName_makeInstanceName_witness :
    ∃ r, makeInstanceName [Example.s, Example.p] [Example.s, Example.version 3] = some r ∧
      parseInstanceName r =
        { strategyName := [Example.s, Example.p] ++ [Example.version 3],
          version := some (Example.version 3).toVersion, parameters := [] } := by
  obtain ⟨r, h1, _, h3⟩ := parseInstanceName_makeInstanceName [Example.s, Example.p]
    [Example.s, Example.version 3] (Example.version 3) Example.s (by decide) (by decide)
    (by decide) (by decide)
  exact ⟨r, h1, h3 (by decide)⟩

/-! ## Claims on `areSameType`, `create` and the linear scan -/

/-- The scan for the greatest name: the result is an element (or the initial value) and
bounds every element and the initial value. -/
theorem foldl_greatest_spec (l : List Name) (acc : Option Name) :
    ((l.foldl (fun best k =>
        match best with
        | none => some k
        | some b => if b < k then some k else some b) acc) = none ↔ acc = none ∧ l = []) ∧
    ∀ a, l.foldl (fun best k =>
        match best with
        | none => some k
        | some b => if b < k then some k else some b) acc = some a →
      (a ∈ l ∨ acc = some a) ∧ (∀ b ∈ l, b ≤ a) ∧ (∀ b, acc = some b → b ≤ a) := by
  induction l generalizing acc with
  | nil =>
    refine ⟨by simp, ?_⟩
    intro a h
    simp only [List.foldl_nil] at h
    refine ⟨Or.inr h, by simp, ?_⟩
    intro b hb
    rw [h] at hb; cases hb; exact le_refl _
  | cons k t ih =>
    simp only [List.foldl_cons]
    cases acc with
    | none =>
      obtain ⟨h1, h2⟩ := ih (some k)
      refine ⟨by simp [h1], ?_⟩
      intro a h
      obtain ⟨h3, h4, h5⟩ := h2 a h
      refine ⟨Or.inl ?_, ?_, by simp⟩
      · rcases h3 with h3 | h3
        · exact List.mem_cons_of_mem _ h3
        · cases h3; exact List.mem_cons_self _ _
      · intro b hb
        rcases List.mem_cons.mp hb with rfl | hb
        · exact h5 _ rfl
        · exact h4 b hb
    | some b0 =>
      by_cases hlt : b0 < k
      · simp only [hlt, if_true]
        obtain ⟨h1, h2⟩ := ih (some k)
        refine ⟨by simp [h1], ?_⟩
        intro a h
        obtain ⟨h3, h4, h5⟩ := h2 a h
        have hka : k ≤ a := h5 _ rfl
        refine ⟨Or.inl ?_, ?_, ?_⟩
        · rcases h3 with h3 | h3
          · exact List.mem_cons_of_mem _ h3
          · cases h3; exact List.mem_cons_self _ _
        · intro b hb
          rcases List.mem_cons.mp hb with rfl | hb
          · exact hka
          · exact h4 b hb
        · intro b hb
          cases hb
          exact hlt.le.trans hka
      · simp only [hlt, if_false]
        obtain ⟨h1, h2⟩ := ih (some b0)
        refine ⟨by simp [h1], ?_⟩
        intro a h
        obtain ⟨h3, h4, h5⟩ := h2 a h
        have hba : b0 ≤ a := h5 _ rfl
        refine ⟨?_, ?_, ?_⟩
        · rcases h3 with h3 | h3
          · exact Or.inl (List.mem_cons_of_mem _ h3)
          · exact Or.inr h3
        · intro b hb
          rcases List.mem_cons.mp hb with rfl | hb
          · exact (not_lt.mp hlt).trans hba
          · exact h4 b hb
        · intro b hb
          cases hb
          exact hba

theorem greatestKeyWithPrefix_eq_none (reg : Registry φ) (n : Name) :
    greatestKeyWithPrefix reg n = none ↔ ∀ k ∈ reg.keys, ¬ n <+: k := by
  unfold greatestKeyWithPrefix
  rw [(foldl_greatest_spec _ none).1]
  simp only [true_and, List.filter_eq_nil_iff, Name.isPrefixOf_iff]

theorem greatestKeyWithPrefix_eq_some (reg : Registry φ) (n a : Name)
    (h : greatestKeyWithPrefix reg n = some a) :
    a ∈ reg.keys ∧ n <+: a ∧ ∀ k ∈ reg.keys, n <+: k → k ≤ a := by
  unfold greatestKeyWithPrefix at h
  obtain ⟨h1, h2, _⟩ := (foldl_greatest_spec _ none).2 a h
  have hmem : a ∈ reg.keys.filter (fun k => n.isPrefixOf k) := by
    rcases h1 with h1 | h1
    · exact h1
    · cases h1
  rw [List.mem_filter] at hmem
  refine ⟨hmem.1, (Name.isPrefixOf_iff _ _).mp hmem.2, ?_⟩
  intro k hk hpre
  exact h2 k (List.mem_filter.mpr ⟨hk, (Name.isPrefixOf_iff _ _).mpr hpre⟩)

theorem keyAt_findIdx_eq {reg : Registry φ} {a : Name} (h : a ∈ reg.keys) :
    reg.keyAt (reg.keys.findIdx (fun key => decide (key = a))) = some a := by
  rw [Registry.keyAt_eq]
  have hlt : reg.keys.findIdx (fun key => decide (key = a)) < reg.keys.length :=
    List.findIdx_lt_length_of_exists ⟨a, h, by simp⟩
  have hget := @List.findIdx_getElem _ (fun key => decide (key = a)) reg.keys hlt
  rw [List.getElem?_eq_getElem hlt]
  simp only [decide_eq_true_eq] at hget
  rw [hget]

/-- C17: for a well-formed registry and a name `N` with no version component at an index
from 1 on, `find` (lower bound of the successor, then one step back) returns what the naive
linear scan returns. For non-empty `N` it is not-found exactly when no registry key has `N` as
a prefix, and the key it resolves to has `N` as a prefix and is the greatest such key; for the
empty name it is not-found. -/
theorem find_eq_findByLinearScan (reg : Registry φ) (wf : reg.WellFormed) (N : Name)
    (hnv : ∀ c ∈ N.tail, c.isVersion = false) :
    find reg N = findByLinearScan reg N ∧
    (N ≠ [] →
      (find reg N = reg.end ↔ ∀ k ∈ reg.keys, ¬ N <+: k) ∧
      ∀ K, reg.keyAt (find reg N) = some K →
        N <+: K ∧ ∀ k ∈ reg.keys, N <+: k → k ≤ K) ∧
    (N = [] → find reg N = reg.end) := by
  have hp := parseInstanceName_unversioned N hnv
  have hempty : N = [] → find reg N = reg.end := by
    intro e
    subst e
    rfl
  refine ⟨?_, ?_, hempty⟩
  · unfold findByLinearScan
    by_cases hN : N = []
    · rw [hempty hN, hN]; rfl
    · have hne : N.isEmpty = false := by
        cases N with
        | nil => exact absurd rfl hN
        | cons _ _ => rfl
      simp only [hne, Bool.false_eq_true, if_false]
      cases hg : greatestKeyWithPrefix reg N with
      | none =>
        exact find_unversioned_not_found wf hp ((greatestKeyWithPrefix_eq_none reg N).mp hg)
      | some a =>
        obtain ⟨h1, h2, h3⟩ := greatestKeyWithPrefix_eq_some reg N a hg
        exact find_unversioned_of_greatest wf hp hN (keyAt_findIdx_eq h1) h2 h3
  · intro hN
    constructor
    · constructor
      · intro hend k hk hpre
        obtain ⟨a, ha⟩ := find_unversioned_found wf hp hN hk hpre
        rw [hend, Registry.keyAt_end] at ha
        cases ha
      · exact find_unversioned_not_found wf hp
    · intro K hK
      exact (find_unversioned_keyAt wf hp hK).2

/-- Witness for C17: on the registry `/s/v1`, `/s/v2`, `/s/x/v1` both computations resolve
`/s` to the position of `/s/x/v1`. -/
theorem find_eq_findByLinearScan_witness :
    find Example.nestedRegistry [Example.s] = findByLinearScan Example.nestedRegistry [Example.s] ∧
    findByLinearScan Example.nestedRegistry [Example.s] = 2 :=
  ⟨(find_eq_findByLinearScan Example.nestedRegistry (by decide) [Example.s] (by decide)).1,
    by decide⟩

theorem areSameType_eq_true_iff (reg : Registry φ) (a b : Name) :
    areSameType reg a b = true ↔ find reg a = find reg b := by
  unfold areSameType
  exact beq_iff_eq

/-- A position `find` returns other than not-found is a position of an entry. -/
theorem find_entry_of_ne_end (reg : Registry φ) (n : Name) (h : find reg n ≠ reg.end) :
    ∃ entry, reg.entries[find reg n]? = some entry := by
  rcases find_eq_end_or_keyAt reg n with h1 | ⟨a, ha⟩
  · exact absurd h1 h
  · have hlt : find reg n < reg.entries.length := Registry.keyAt_lt_end ha
    exact ⟨reg.entries[find reg n], List.getElem?_eq_getElem hlt⟩

theorem entries_end (reg : Registry φ) : reg.entries[reg.end]? = none :=
  List.getElem?_eq_none (le_refl _)

/-- C13 (as stated, refuted): `/strategyA/%FD%01` is the only registered version of
`/strategyA`, the other registered key `/strategyA/x/%FD%01` belonging to a nested family,
yet `areSameType(/strategyA/%FD%01, /strategyA)` is false: the unversioned name resolves to
the nested key. -/
theorem areSameType_counterexample :
    Example.strategyANestedRegistry.WellFormed ∧
    Example.strategyANestedRegistry.keys
      = [[Example.strategyA, Example.version 1],
         [Example.strategyA, Example.x, Example.version 1]] ∧
    Example.x.isVersion = false ∧
    find Example.strategyANestedRegistry [Example.strategyA, Example.version 1] = 0 ∧
    find Example.strategyANestedRegistry [Example.strategyA] = 1 ∧
    areSameType Example.strategyANestedRegistry [Example.strategyA, Example.version 1]
      [Example.strategyA] = false := by
  decide

/-- C13 (amended): for every registry `areSameType` is reflexive, symmetric and transitive;
and in a well-formed registry in which `A ++ [v]`, for a non-empty `A` without version
component after its first component and a version component `v`, is the only key that has `A`
as a prefix, `areSameType (A ++ [v]) A` is true. -/
theorem areSameType_equivalence (reg : Registry φ) :
    (∀ a, areSameType reg a a = true) ∧
    (∀ a b, areSameType reg a b = true → areSameType reg b a = true) ∧
    (∀ a b c, areSameType reg a b = true → areSameType reg b c = true →
      areSameType reg a c = true) ∧
    (reg.WellFormed → ∀ (A : Name) (v : Component), A ≠ [] →
      (∀ c ∈ A.tail, c.isVersion = false) → v.isVersion = true → A ++ [v] ∈ reg.keys →
      (∀ K ∈ reg.keys, A <+: K → K = A ++ [v]) → areSameType reg (A ++ [v]) A = true) := by
  refine ⟨?_, ?_, ?_, ?_⟩
  · intro a
    exact (areSameType_eq_true_iff reg a a).mpr rfl
  · intro a b h
    exact (areSameType_eq_true_iff reg b a).mpr ((areSameType_eq_true_iff reg a b).mp h).symm
  · intro a b c h1 h2
    exact (areSameType_eq_true_iff reg a c).mpr
      (((areSameType_eq_true_iff reg a b).mp h1).trans ((areSameType_eq_true_iff reg b c).mp h2))
  · intro wf A v hA hnv hv hmem honly
    obtain ⟨i, hi⟩ := Registry.mem_keys_iff.mp hmem
    have hpv : parseInstanceName (A ++ [v]) = ⟨A ++ [v], some v.toVersion, []⟩ := by
      have := parseInstanceName_versioned A [] v hA hv (by simp)
      simpa using this
    have h1 : find reg (A ++ [v]) = i :=
      find_versioned_of_least wf hpv hi (le_refl _) (by simp) (fun b _ hb => hb)
    have hpu := parseInstanceName_unversioned A hnv
    have h2 : find reg A = i :=
      find_unversioned_of_greatest wf hpu hA hi (List.prefix_append A [v])
        (fun b hb hpre => (honly b hb hpre).le)
    exact (areSameType_eq_true_iff reg _ _).mpr (h1.trans h2.symm)

/-- Witness for C13 (amended): with `/strategyA/%FD%01` the only registered key,
`areSameType(/strategyA/%FD%01, /strategyA)` is true. -/
theorem areSameType_equivalence_witness :
    areSameType Example.strategyARegistry ([Example.strategyA] ++ [Example.version 1])
      [Example.strategyA] = true :=
  (areSameType_equivalence Example.strategyARegistry).2.2.2 (by decide) [Example.strategyA]
    (Example.version 1) (by decide) (by decide) (by decide) (by decide) (by decide)

/-- C14 (as stated, refuted): neither `/p` nor `/x` resolves to an entry of the registry
`/s/v1`, `/s/v3`, `/s/v5`, both `find` calls return not-found, yet `areSameType(/p, /x)` is
true. -/
theorem areSameType_iff_counterexample :
    find Example.plainRegistry [Example.p] = Example.plainRegistry.end ∧
    find Example.plainRegistry [Example.x] = Example.plainRegistry.end ∧
    Example.plainRegistry.entries[find Example.plainRegistry [Example.p]]? = none ∧
    Example.plainRegistry.entries[find Example.plainRegistry [Example.x]]? = none ∧
    areSameType Example.plainRegistry [Example.p] [Example.x] = true := by
  decide

/-- C14 (amended): in a well-formed registry `areSameType a b` is true exactly when `find`
returns the same iterator for both names: either both names resolve to one and the same
registry entry, or both are not-found. It is false when exactly one of them resolves to no
entry. -/
theorem areSameType_iff (reg : Registry φ) (wf : reg.WellFormed) (a b : Name) :
    (areSameType reg a b = true ↔
      (∃ entry, reg.entries[find reg a]? = some entry ∧
        reg.entries[find reg b]? = some entry) ∨
      (find reg a = reg.end ∧ find reg b = reg.end)) ∧
    (find reg a = reg.end → find reg b ≠ reg.end → areSameType reg a b = false) ∧
    (find reg a ≠ reg.end → find reg b = reg.end → areSameType reg a b = false) := by
  refine ⟨?_, ?_, ?_⟩
  · rw [areSameType_eq_true_iff]
    constructor
    · intro h
      by_cases hend : find reg a = reg.end
      · exact Or.inr ⟨hend, h ▸ hend⟩
      · obtain ⟨entry, he⟩ := find_entry_of_ne_end reg a hend
        exact Or.inl ⟨entry, he, h ▸ he⟩
    · rintro (⟨entry, h1, h2⟩ | ⟨h1, h2⟩)
      · have k1 : reg.keyAt (find reg a) = some entry.1 := by simp [Registry.keyAt, h1]
        have k2 : reg.keyAt (find reg b) = some entry.1 := by simp [Registry.keyAt, h2]
        have h3 := (Registry.keyAt_le_keyAt_iff wf k1 k2).mp (le_refl _)
        have h4 := (Registry.keyAt_le_keyAt_iff wf k2 k1).mp (le_refl _)
        exact le_antisymm h3 h4
      · rw [h1, h2]
  · intro h1 h2
    have : ¬ areSameType reg a b = true := by
      rw [areSameType_eq_true_iff, h1]
      exact fun e => h2 e.symm
    simpa using this
  · intro h1 h2
    have : ¬ areSameType reg a b = true := by
      rw [areSameType_eq_true_iff, h2]
      exact h1
    simpa using this

/-- Witness for C14 (amended): `/s` and `/s/v5/p` resolve to the same entry `/s/v5`, and
`/s` and the unregistered `/p` are not of the same type. -/
theorem areSameType_iff_witness :
    areSameType Example.plainRegistry [Example.s] [Example.s, Example.version 5, Example.p]
      = true ∧
    areSameType Example.plainRegistry [Example.p] [Example.s] = false :=
  ⟨(areSameType_iff Example.plainRegistry (by decide) [Example.s]
      [Example.s, Example.version 5, Example.p]).1.mpr
      (Or.inl ⟨([Example.s, Example.version 5], 3), by decide, by decide⟩),
    (areSameType_iff Example.plainRegistry (by decide) [Example.p] [Example.s]).2.1
      (by decide) (by decide)⟩

/-- C16: `canCreate` is true exactly when `find` does not return not-found; `create` returns
the absent result exactly when `canCreate` is false; otherwise `create` calls the factory of
the entry `find` resolves to with the forwarder and the requested instance name itself, and
returns the instance so created, or faults when that instance reports an empty instance
name. -/
theorem create_canCreate (reg : Registry CreateFunc) (n : Name) (forwarder : Forwarder) :
    (canCreate reg n = true ↔ find reg n ≠ reg.end) ∧
    (create reg n forwarder = .ok none ↔ canCreate reg n = false) ∧
    (canCreate reg n = true →
      ∃ entry, reg.entries[find reg n]? = some entry ∧
        create reg n forwarder =
          if (entry.2 forwarder n).getInstanceName.isEmpty then .error .emptyInstanceName
          else .ok (some (entry.2 forwarder n))) := by
  have hcan : canCreate reg n = true ↔ find reg n ≠ reg.end := by
    unfold canCreate
    exact bne_iff_ne
  have hfound : find reg n ≠ reg.end →
      ∃ entry, reg.entries[find reg n]? = some entry ∧
        create reg n forwarder =
          if (entry.2 forwarder n).getInstanceName.isEmpty then .error .emptyInstanceName
          else .ok (some (entry.2 forwarder n)) := by
    intro hne
    obtain ⟨entry, he⟩ := find_entry_of_ne_end reg n hne
    refine ⟨entry, he, ?_⟩
    unfold create
    simp only [beq_iff_eq, hne, if_false, he]
  refine ⟨hcan, ?_, fun h => hfound (hcan.mp h)⟩
  constructor
  · intro hc
    by_contra hcc
    have hne : find reg n ≠ reg.end := hcan.mp (by simpa using hcc)
    obtain ⟨entry, _, he⟩ := hfound hne
    rw [he] at hc
    split at hc <;> cases hc
  · intro hc
    have hend : find reg n = reg.end := by
      by_contra hne
      rw [hcan.mpr hne] at hc
      cases hc
    unfold create
    simp [hend]

/-- Witness for C16: the request `/s/v2/p` resolves to the entry `/s/v3`, whose factory is
called with `/s/v2/p` itself; the request `/s/v4/p` cannot be created and gives the absent
result. -/
theorem create_canCreate_witness :
    create Example.factoryRegistry [Example.s, Example.version 2, Example.p]
        Example.coreForwarder
      = .ok (some { getInstanceName := [Example.s, Example.version 2, Example.p], m_id := 3 }) ∧
    create Example.factoryRegistry [Example.s, Example.version 4, Example.p]
        Example.coreForwarder = .ok none := by
  constructor
  · obtain ⟨entry, h1, h2⟩ := (create_canCreate Example.factoryRegistry
      [Example.s, Example.version 2, Example.p] Example.coreForwarder).2.2 (by decide)
    have he : entry = ([Example.s, Example.version 3], Example.echoFactory 3) :=
      (Option.some.inj h1).symm
    rw [h2, he]
    rfl
  · exact (create_canCreate Example.factoryRegistry [Example.s, Example.version 4, Example.p]
      Example.coreForwarder).2.1.mpr (by decide)

/-! ## Claims on the faults of `lookupFib` -/

/-- When no delegation has an entry with next hops the delegation loop runs to the final
assertion. -/
theorem chooseDelegation_exhausted (forwarder : Forwarder) (store : InterestStore)
    (pitEntry : pit.Entry) (ds : List (Nat × Name))
    (h : ∀ d ∈ ds, (forwarder.fib.findLongestPrefixMatch d.2).hasNextHops = false) :
    lookupFib.chooseDelegation forwarder store pitEntry ds = .error .delegationsExhausted := by
  induction ds with
  | nil => rfl
  | cons d ds ih =>
    have hd := h d (List.mem_cons_self _ _)
    simp only [lookupFib.chooseDelegation, hd, Bool.false_eq_true, if_false]
    exact ih (fun y hy => h y (List.mem_cons_of_mem _ hy))

/-- C15: for a pending request whose Interest carries a Link and no selected delegation,
outside the producer region, when no delegation of the Link has a longest-prefix-match entry
with a next hop, `lookupFib` does not return an entry: it ends in a fault, which is the
assertion after the delegation loop whenever the Link has a delegation at all. -/
theorem lookupFib_delegations_exhausted (forwarder : Forwarder) (store : InterestStore)
    (pitEntry : pit.Entry) (link : Link)
    (hlink : (store pitEntry.interest).link = some link)
    (hsel : (store pitEntry.interest).selectedDelegation = none)
    (hprod : forwarder.isInProducerRegion link = false)
    (hnone : ∀ d ∈ link.delegations,
      (forwarder.fib.findLongestPrefixMatch d.2).hasNextHops = false) :
    ∃ fault, lookupFib forwarder store pitEntry = .error fault ∧
      (link.delegations ≠ [] → fault = .delegationsExhausted) := by
  cases hdel : link.delegations with
  | nil =>
    refine ⟨.noDelegations, ?_, fun h => absurd rfl h⟩
    unfold lookupFib
    simp only [hlink, hsel, hprod, hdel, Bool.false_eq_true, if_false]
  | cons first rest =>
    refine ⟨.delegationsExhausted, ?_, fun _ => rfl⟩
    have hfirst : (forwarder.fib.findLongestPrefixMatch first.2).hasNextHops = false :=
      hnone first (by rw [hdel]; exact List.mem_cons_self _ _)
    rw [lookupFib_scan forwarder store pitEntry link first rest hlink hsel hprod hdel
      (by rw [hfirst]; simp)]
    exact chooseDelegation_exhausted forwarder store pitEntry _ hnone

/-- Witness for C15: the table only holds `/b`, the Link delegates to `/a` and `/a/b`; no
delegation has a next hop and the lookup ends in the final assertion. -/
theorem lookupFib_delegations_exhausted_witness :
    lookupFib Example.coreForwarder Example.noRouteStore Example.sharedPit
      = .error .delegationsExhausted := by
  obtain ⟨fault, h1, h2⟩ := lookupFib_delegations_exhausted Example.coreForwarder
    Example.noRouteStore Example.sharedPit Example.linkNoRoute rfl rfl rfl (by decide)
  rw [h1, h2 (by decide)]

/-- C18: for a pending request whose Interest carries a Link and no selected delegation,
an entry that `lookupFib` returns (no assertion failing) has at least one next hop: it is
either the entry of the first delegation, with a zero-length prefix, returned through the
consumer-region branch, or the entry of the first delegation in priority order whose entry
has next hops, returned through the default-free-zone branch. -/
theorem lookupFib_returns_servable (forwarder : Forwarder) (store : InterestStore)
    (pitEntry : pit.Entry) (link : Link) (r : LookupResult)
    (hlink : (store pitEntry.interest).link = some link)
    (hsel : (store pitEntry.interest).selectedDelegation = none)
    (h : lookupFib forwarder store pitEntry = .ok r) :
    r.entry.hasNextHops = true ∧
    ((r.branch = .inConsumerRegion ∧
        ∃ first rest, link.delegations = first :: rest ∧
          r.entry = forwarder.fib.findLongestPrefixMatch first.2 ∧
          r.entry.getPrefix.length = 0) ∨
      (r.branch = .enterDefaultFreeZone ∧
        ∃ pre d post, link.delegations = pre ++ d :: post ∧
          (∀ x ∈ pre, (forwarder.fib.findLongestPrefixMatch x.2).hasNextHops = false) ∧
          r.entry = forwarder.fib.findLongestPrefixMatch d.2)) := by
  unfold lookupFib at h
  simp only [hlink, hsel] at h
  split at h
  · cases h
  · split at h
    · cases h
    · rename_i first rest hdel
      split at h
      · rename_i hcons
        simp only [Except.ok.injEq] at h
        subst h
        have hc : (forwarder.fib.findLongestPrefixMatch first.2).getPrefix.length = 0 ∧
            (forwarder.fib.findLongestPrefixMatch first.2).hasNextHops = true := by
          simpa using hcons
        exact ⟨hc.2, Or.inl ⟨rfl, first, rest, hdel, rfl, hc.1⟩⟩
      · obtain ⟨pre, d, post, hds, hpre, hd, rfl⟩ :=
          chooseDelegation_ok forwarder store pitEntry _ r h
        exact ⟨hd, Or.inr ⟨rfl, pre, d, post, hds, hpre, rfl⟩⟩

/-- Witness for C18: without a default route the lookup returns the entry of `/b`, which has
a next hop. -/
theorem lookupFib_returns_servable_witness :
    ∃ r, lookupFib Example.coreForwarder Example.linkStore Example.sharedPit = .ok r ∧
      r.entry = Example.entryB ∧ r.entry.hasNextHops = true :=
  ⟨_, rfl, rfl, (lookupFib_returns_servable Example.coreForwarder Example.linkStore
    Example.sharedPit Example.linkAB _ rfl rfl rfl).1⟩

end Strategy
end fw
end nfd
